import Mathlib

/-!
# Verification of the poterm PO-file editor core

A shallow embedding of `src/gettext.rs` (the PO catalog data model,
parser and serializer) and `src/ui.rs` / `src/main.rs` (the editing
session controller), with theorems settling the specification claims.

Rust `String`s are modelled as `List Char` (`Str`).  Character-level
operations (`trim`, `starts_with`, `split`, `find`, `to_lowercase`)
are modelled on the character set relevant to PO files; Rust's
whitespace set is modelled as space, tab, newline and carriage return.
Byte lengths of UTF-8 strings are computed with an explicit per-char
size function.  Fallible operations return `Option`, with `none`
modelling a panic or a diverging loop (the parser's outer loop can
fail to make progress, which in the Rust code is an infinite loop; the
fuel argument of `parseLoopF` makes that observable as `none`).
-/

set_option maxRecDepth 10000

namespace Poterm

abbrev Str := List Char

/-- The double-quote character (written via its code point to keep
character syntax simple). -/
def qc : Char := Char.ofNat 34

/-- The backslash character. -/
def bs : Char := '\\'

/-- Whitespace as used by `str::trim` / regex `\s` on PO content. -/
def isWS (c : Char) : Bool := c = ' ' || c = '\t' || c = '\n' || c = '\r'

/-- Model of Rust `str::trim_start`. -/
def trimLeft (s : Str) : Str := s.dropWhile isWS

/-- Model of Rust `str::trim_end`. -/
def trimRight (s : Str) : Str := (s.reverse.dropWhile isWS).reverse

/-- Model of Rust `str::trim`. -/
def trim (s : Str) : Str := trimRight (trimLeft s)

/-- Model of Rust `str::starts_with` (first argument: the pattern). -/
def isPre (p s : Str) : Bool :=
  match p, s with
  | [], _ => true
  | _ :: _, [] => false
  | a :: p', b :: s' => a = b && isPre p' s'

/-- Model of Rust `str::split(c)`: splits at every occurrence of `c`,
producing `[[]]` on the empty string. -/
def splitOnChar (c : Char) : Str → List Str
  | [] => [[]]
  | x :: xs =>
    if x = c then [] :: splitOnChar c xs
    else
      match splitOnChar c xs with
      | [] => [[x]]
      | h :: t => (x :: h) :: t

/-- Model of Rust `str::find(c)`: index of the first occurrence. -/
def findIdx1 (c : Char) : Str → Option Nat
  | [] => none
  | x :: xs => if x = c then some 0 else (findIdx1 c xs).map (· + 1)

/-- Helper for `splitLines`: a line accumulated in reverse, terminated
by `'\n'`, loses one trailing `'\r'`. -/
def stripCRrev (acc : Str) : Str :=
  match acc with
  | [] => []
  | c :: acc' => if c = '\r' then acc'.reverse else (c :: acc').reverse

/-- Worker for `splitLines`: `acc` is the current line in reverse. -/
def splitLinesGo : Str → Str → List Str
  | acc, [] => [acc.reverse]
  | acc, c :: rest =>
    if c = '\n' then
      stripCRrev acc ::
        (match rest with
         | [] => []
         | _ :: _ => splitLinesGo [] rest)
    else splitLinesGo (c :: acc) rest

/-- Model of Rust `str::lines`: split on `'\n'`, drop the final empty
piece produced by a trailing newline, and strip one `'\r'` from the
end of a piece that was terminated by `'\n'`. -/
def splitLines (s : Str) : List Str :=
  match s with
  | [] => []
  | _ :: _ => splitLinesGo [] s

/-- UTF-8 byte length of a character (model of Rust `char::len_utf8`). -/
def utf8Len (c : Char) : Nat :=
  if c.toNat < 0x80 then 1
  else if c.toNat < 0x800 then 2
  else if c.toNat < 0x10000 then 3
  else 4

/-- UTF-8 byte length of a string (model of Rust `str::len`). -/
def strByteLen (s : Str) : Nat := (s.map utf8Len).sum

/-- Lowercasing for the case-insensitive search (model of
`str::to_lowercase` on the searched character range). -/
def toLowerStr (s : Str) : Str := s.map Char.toLower

/-- Model of Rust `str::contains(&str)`: substring test. -/
def containsSub (needle : Str) : Str → Bool
  | [] => isPre needle []
  | h :: t => isPre needle (h :: t) || containsSub needle t

/-- `Vec::join(sep)`. -/
def joinSep (sep : Str) : List Str → Str
  | [] => []
  | [x] => x
  | x :: y :: t => x ++ sep ++ joinSep sep (y :: t)

/-! ## Escape and unescape (gettext.rs: `escape_string`, `parse_string_literal`) -/

/-- One `str::replace(c, r)` pass (character pattern). -/
def replaceChar (s : Str) (c : Char) (r : Str) : Str :=
  match s with
  | [] => []
  | x :: xs => (if x = c then r else [x]) ++ replaceChar xs c r

/-- `PoFile::escape_string`: the five sequential `replace` calls
(backslash first, so later substitutions are not double-escaped). -/
def escape_string (s : Str) : Str :=
  replaceChar
    (replaceChar
      (replaceChar
        (replaceChar
          (replaceChar s bs [bs, bs])
          '\n' [bs, 'n'])
        '\t' [bs, 't'])
      '\r' [bs, 'r'])
    qc [bs, qc]

/-- Character-wise view of `escape_string`. -/
def escChar (c : Char) : Str :=
  if c = bs then [bs, bs]
  else if c = '\n' then [bs, 'n']
  else if c = '\t' then [bs, 't']
  else if c = '\r' then [bs, 'r']
  else if c = qc then [bs, qc]
  else [c]

/-- The escape-decoding walk inside `parse_string_literal`:
`\n`, `\t`, `\r`, `\\`, `\"` are translated, an unrecognized escape is
preserved verbatim, and a trailing lone backslash is kept. -/
def decodeChars : Str → Str
  | [] => []
  | c :: rest =>
    if c = bs then
      match rest with
      | [] => [bs]
      | d :: r =>
        if d = 'n' then '\n' :: decodeChars r
        else if d = 't' then '\t' :: decodeChars r
        else if d = 'r' then '\r' :: decodeChars r
        else if d = bs then bs :: decodeChars r
        else if d = qc then qc :: decodeChars r
        else bs :: d :: decodeChars r
    else c :: decodeChars rest

/-- `PoFile::parse_string_literal`.  A string that does not both start
and end with a quote is returned unchanged.  The single-character
string consisting of one quote passes both tests and then slices
`[1..0]`, which panics in Rust; that is the `none` case. -/
def parse_string_literal (s : Str) : Option Str :=
  if isPre [qc] s && (s.getLast? == some qc) then
    if s.length == 1 then none
    else some (decodeChars ((s.drop 1).dropLast))
  else some s

/-! ### Basic lemmas -/

theorem isPre_eq_true_iff (p s : Str) :
    isPre p s = true ↔ ∃ t, s = p ++ t := by
  induction p generalizing s with
  | nil => simp [isPre]
  | cons a p' ih =>
    cases s with
    | nil => simp [isPre]
    | cons b s' =>
      simp only [isPre, Bool.and_eq_true, decide_eq_true_eq, ih]
      constructor
      · rintro ⟨rfl, t, rfl⟩; exact ⟨t, rfl⟩
      · rintro ⟨t, h⟩
        injection h with h1 h2
        exact ⟨h1.symm, t, h2⟩

theorem replaceChar_append (a b : Str) (c : Char) (r : Str) :
    replaceChar (a ++ b) c r = replaceChar a c r ++ replaceChar b c r := by
  induction a with
  | nil => rfl
  | cons x xs ih => simp [replaceChar, ih]

/-- `escape_string` processes its input character by character. -/
theorem escape_string_cons (c : Char) (s : Str) :
    escape_string (c :: s) = escChar c ++ escape_string s := by
  have h : (c :: s) = [c] ++ s := rfl
  rw [escape_string, h, replaceChar_append, replaceChar_append,
    replaceChar_append, replaceChar_append, replaceChar_append]
  congr 1
  -- the five passes applied to the single character [c]
  by_cases h1 : c = bs
  · subst h1; simp [replaceChar, escChar, bs, qc]
  · by_cases h2 : c = '\n'
    · subst h2; simp [replaceChar, escChar, bs, qc]
    · by_cases h3 : c = '\t'
      · subst h3; simp [replaceChar, escChar, bs, qc]
      · by_cases h4 : c = '\r'
        · subst h4; simp [replaceChar, escChar, bs, qc]
        · by_cases h5 : c = qc
          · subst h5; simp [replaceChar, escChar, bs, qc]
          · simp [replaceChar, escChar, h1, h2, h3, h4, h5]

theorem decodeChars_not_bs (c : Char) (r : Str) (h : c ≠ bs) :
    decodeChars (c :: r) = c :: decodeChars r := by
  rw [decodeChars.eq_def]
  simp only [if_neg h]

/-- Decoding consumes the escape of a single character and continues. -/
theorem decode_escChar (c : Char) (r : Str) :
    decodeChars (escChar c ++ r) = c :: decodeChars r := by
  by_cases h1 : c = bs
  · subst h1; simp [escChar, decodeChars, bs, qc]
  · by_cases h2 : c = '\n'
    · subst h2; simp [escChar, h1, decodeChars, bs, qc]
    · by_cases h3 : c = '\t'
      · subst h3; simp [escChar, h1, h2, decodeChars, bs, qc]
      · by_cases h4 : c = '\r'
        · subst h4; simp [escChar, h1, h2, h3, decodeChars, bs, qc]
        · by_cases h5 : c = qc
          · subst h5; simp [escChar, h1, h2, h3, h4, decodeChars, bs, qc]
          · simp only [escChar, if_neg h1, if_neg h2, if_neg h3, if_neg h4,
              if_neg h5, List.singleton_append]
            exact decodeChars_not_bs c r h1

/-- Decoding inverts escaping, compositionally: the decoder consumes
exactly the escape of `s` and continues with the tail. -/
theorem decodeChars_escape (s t : Str) :
    decodeChars (escape_string s ++ t) = s ++ decodeChars t := by
  induction s with
  | nil =>
    have h0 : escape_string [] = [] := rfl
    simp [h0]
  | cons c cs ih =>
    rw [escape_string_cons, List.append_assoc, decode_escChar, ih]
    rfl

/-- Decoding a backslash-free prefix passes it through unchanged. -/
theorem decodeChars_clean (s t : Str) (h : ∀ c ∈ s, c ≠ bs) :
    decodeChars (s ++ t) = s ++ decodeChars t := by
  induction s with
  | nil => simp
  | cons c cs ih =>
    have hc : c ≠ bs := h c (by simp)
    rw [List.cons_append, decodeChars_not_bs c _ hc,
      ih (fun d hd => h d (by simp [hd]))]
    rfl

theorem decodeChars_escape_nil (s : Str) :
    decodeChars (escape_string s) = s := by
  have h := decodeChars_escape s []
  rw [List.append_nil] at h
  rw [h]
  simp [decodeChars]

end Poterm

namespace Poterm

/-! ## Data model (gettext.rs: `PoEntry`, `PoFile`) -/

/-- The flag string checked by `update_status`. -/
def fuzzyS : Str := "fuzzy".toList

/-- `PoEntry` from gettext.rs. -/
structure PoEntry where
  msgid : Str
  msgstr : Str
  msgctxt : Option Str
  comments : List Str
  extracted_comments : List Str
  references : List Str
  flags : List Str
  is_fuzzy : Bool
  is_translated : Bool
deriving DecidableEq

/-- `PoEntry::new`. -/
def PoEntry.new : PoEntry :=
  { msgid := [], msgstr := [], msgctxt := none, comments := [],
    extracted_comments := [], references := [], flags := [],
    is_fuzzy := false, is_translated := false }

/-- `PoEntry::update_status`: recompute the derived fields. -/
def PoEntry.update_status (e : PoEntry) : PoEntry :=
  let fz := e.flags.contains fuzzyS
  { e with is_fuzzy := fz, is_translated := !e.msgstr.isEmpty && !fz }

/-- `PoEntry::set_msgstr`. -/
def PoEntry.set_msgstr (e : PoEntry) (s : Str) : PoEntry :=
  { e with msgstr := s }.update_status

/-- `PoEntry::toggle_fuzzy`. -/
def PoEntry.toggle_fuzzy (e : PoEntry) : PoEntry :=
  (if e.is_fuzzy then { e with flags := e.flags.filter (fun f => !(f == fuzzyS)) }
   else { e with flags := e.flags ++ [fuzzyS] }).update_status

/-- The entry-level effect of `App::mark_current_entry_done`
(ui.rs lines 507-508): remove `fuzzy` from the flags, recompute. -/
def PoEntry.mark_done (e : PoEntry) : PoEntry :=
  { e with flags := e.flags.filter (fun f => !(f == fuzzyS)) }.update_status

/-- `PoFile` from gettext.rs.  The Rust header is a `HashMap`; it is
modelled as an association list in insertion order (a deterministic
refinement: claims about the header compare key/value content). -/
structure PoFile where
  path : Option Str
  header : List (Str × Str)
  entries : List PoEntry
  modified : Bool
deriving DecidableEq

/-- `HashMap::insert`: replace the value of an existing key, or add
the binding. -/
def headerInsert (h : List (Str × Str)) (k v : Str) : List (Str × Str) :=
  if h.any (fun p => p.1 == k) then
    h.map (fun p => if p.1 == k then (p.1, v) else p)
  else h ++ [(k, v)]

/-- `HashMap::get`. -/
def headerLookup (h : List (Str × Str)) (k : Str) : Option Str :=
  (h.find? (fun p => p.1 == k)).map (·.2)

/-- `PoFile::mark_modified`. -/
def PoFile.mark_modified (f : PoFile) : PoFile := { f with modified := true }

/-- `PoFile::set_header_field`. -/
def PoFile.set_header_field (f : PoFile) (k v : Str) : PoFile :=
  { f with header := headerInsert f.header k v, modified := true }

/-- `PoFile::update_revision_date`.  The Rust code formats
`chrono::Utc::now()`; the current timestamp is passed in as `now`. -/
def PoFile.update_revision_date (now : Str) (f : PoFile) : PoFile :=
  f.set_header_field "PO-Revision-Date".toList now

/-! ## Parser (gettext.rs: `PoFile::parse` and helpers) -/

/-- Capture of the regex `msg(?:id|str|ctxt)\s+"(.*)"`, part 1: which
alternative matches right after `msg` (at most one can, since the
alternatives begin with distinct characters). -/
def matchKw (s : Str) : Option Nat :=
  if isPre "id".toList s then some 2
  else if isPre "str".toList s then some 3
  else if isPre "ctxt".toList s then some 4
  else none

/-- The greedy `(.*)"` tail: the text before the last quote, if any
quote exists. -/
def beforeLastQuote (s : Str) : Option Str :=
  match s.reverse.dropWhile (fun c => !(c = qc)) with
  | [] => none
  | _ :: t => some t.reverse

/-- Try to match the regex at the start of `s`: `msg`, one keyword,
one-or-more whitespace, a quote, then capture up to the last quote. -/
def matchAt (s : Str) : Option Str :=
  if isPre "msg".toList s then
    match matchKw (s.drop 3) with
    | none => none
    | some k =>
      let r := s.drop (3 + k)
      let w := (r.takeWhile isWS).length
      if w = 0 then none
      else
        match r.drop w with
        | c :: rest => if c = qc then beforeLastQuote rest else none
        | [] => none
  else none

/-- Leftmost match of the regex: scan start positions left to right. -/
def findCap : Str → Option Str
  | [] => none
  | c :: rest =>
    match matchAt (c :: rest) with
    | some cap => some cap
    | none => findCap rest

/-- `PoFile::parse_string_value`: on a capture, decode it (the
re-wrapped literal always has length at least 2, so the inner
`parse_string_literal` call cannot panic); with no match, the empty
string. -/
def parse_string_value (line : Str) : Str :=
  match findCap line with
  | some cap => decodeChars cap
  | none => []

/-- The comment/metadata prefix loop of `PoFile::parse` (lines
169-191): consume `#.`, `#:`, `#,` and plain `#` lines (but not `#~`),
stopping at a blank line or any other line. -/
def parseMeta : PoEntry → List Str → PoEntry × List Str
  | e, [] => (e, [])
  | e, l :: rest =>
    let t := trim l
    if t.isEmpty then (e, l :: rest)
    else if isPre "#.".toList t then
      parseMeta { e with extracted_comments := e.extracted_comments ++ [trim (t.drop 2)] } rest
    else if isPre "#:".toList t then
      parseMeta { e with references := e.references ++ [trim (t.drop 2)] } rest
    else if isPre "#,".toList t then
      parseMeta { e with flags := e.flags ++ (splitOnChar ',' (t.drop 2)).map trim } rest
    else if isPre "#".toList t && !isPre "#~".toList t then
      parseMeta { e with comments := e.comments ++ [trim (t.drop 1)] } rest
    else (e, l :: rest)

/-- A continuation loop: consume lines whose trimmed form starts with
a quote, decoding each and appending.  `none` is the panic of
`parse_string_literal` on a lone-quote line. -/
def parseContin : Str → List Str → Option (Str × List Str)
  | acc, [] => some (acc, [])
  | acc, l :: rest =>
    let t := trim l
    if isPre [qc] t then
      match parse_string_literal t with
      | none => none
      | some v => parseContin (acc ++ v) rest
    else some (acc, l :: rest)

/-- One keyword section of the block parser: if the next line starts
with `kw`, take its string value and the following continuation
lines. -/
def parseKw (kw : Str) (ls : List Str) : Option (Option Str × List Str) :=
  match ls with
  | [] => some (none, ls)
  | l :: rest =>
    if isPre kw (trim l) then
      match parseContin (parse_string_value (trim l)) rest with
      | none => none
      | some (v, ls') => some (some v, ls')
    else some (none, ls)

/-- One block of `PoFile::parse` (lines 164-257): metadata lines, then
optional `msgctxt`, `msgid`, `msgstr` sections.  Returns the entry
before `update_status` and the unconsumed lines. -/
def parseBlock (ls : List Str) : Option (PoEntry × List Str) :=
  let m := parseMeta PoEntry.new ls
  match parseKw "msgctxt".toList m.2 with
  | none => none
  | some (octx, ls2) =>
    let e2 := match octx with
      | some c => { m.1 with msgctxt := some c }
      | none => m.1
    match parseKw "msgid".toList ls2 with
    | none => none
    | some (omid, ls3) =>
      let e3 := match omid with
        | some v => { e2 with msgid := v }
        | none => e2
      match parseKw "msgstr".toList ls3 with
      | none => none
      | some (omstr, ls4) =>
        let e4 := match omstr with
          | some v => { e3 with msgstr := v }
          | none => e3
        some (e4, ls4)

/-- The header-entry handling of `PoFile::parse` (lines 263-271):
parse `msgstr` as `key: value` lines, split on the first colon, and
insert into the header. -/
def headerMerge (h : List (Str × Str)) (msgstr : Str) : List (Str × Str) :=
  (splitLines msgstr).foldl
    (fun acc line =>
      match findIdx1 ':' line with
      | none => acc
      | some j => headerInsert acc (trim (line.take j)) (trim (line.drop (j + 1))))
    h

/-- The outer `while` loop of `PoFile::parse`.  `atStart` is
`start_i == 0`: true only until the first line (blank or not) has been
consumed.  The loop body consumes no lines when a non-blank line
matches no rule; in Rust that is an infinite loop, here the fuel runs
out and the result is `none`. -/
def parseLoopF : Nat → PoFile → Bool → List Str → Option PoFile
  | 0, _, _, _ => none
  | _ + 1, acc, _, [] => some acc
  | f + 1, acc, atStart, l :: rest =>
    if (trim l).isEmpty then parseLoopF f acc false rest
    else
      match parseBlock (l :: rest) with
      | none => none
      | some (e0, ls') =>
        let e := e0.update_status
        let acc' :=
          if e.msgid.isEmpty && atStart then
            { acc with header := headerMerge acc.header e.msgstr }
          else if !e.msgid.isEmpty then
            { acc with entries := acc.entries ++ [e] }
          else acc
        parseLoopF f acc' false ls'

/-- `PoFile::parse`.  With fuel `lines.length + 1` the result is
`some` exactly when the Rust loop terminates (every productive
iteration consumes at least one line), and `none` when it diverges or
panics. -/
def parse (content : Str) : Option PoFile :=
  let ls := splitLines content
  parseLoopF (ls.length + 1) { path := none, header := [], entries := [], modified := false } true ls

/-! ## Serializer (gettext.rs: `PoFile::to_string`) -/

/-- One serialized header line: `"key: value\n"` (the value escaped,
the key not). -/
def headerLine (p : Str × Str) : Str :=
  qc :: (p.1 ++ ':' :: ' ' :: (escape_string p.2 ++ [bs, 'n', qc]))

/-- The serialized lines of one entry, with the trailing blank
separator. -/
def entryLines (e : PoEntry) : List Str :=
  e.comments.map (fun c => '#' :: ' ' :: c) ++
  e.extracted_comments.map (fun c => '#' :: '.' :: ' ' :: c) ++
  e.references.map (fun r => '#' :: ':' :: ' ' :: r) ++
  (if e.flags.isEmpty then [] else ['#' :: ',' :: ' ' :: joinSep [',', ' '] e.flags]) ++
  (match e.msgctxt with
   | none => []
   | some c => ["msgctxt ".toList ++ qc :: (escape_string c ++ [qc])]) ++
  ["msgid ".toList ++ qc :: (escape_string e.msgid ++ [qc]),
   "msgstr ".toList ++ qc :: (escape_string e.msgstr ++ [qc]),
   []]

/-- All serialized lines: the header block (only if the header is
non-empty) then the entries. -/
def poLines (f : PoFile) : List Str :=
  (if f.header.isEmpty then [] else
    ("msgid ".toList ++ [qc, qc]) :: ("msgstr ".toList ++ [qc, qc]) ::
      (f.header.map headerLine ++ [[]])) ++
  (f.entries.map entryLines).flatten

/-- `PoFile::to_string`: every line followed by `'\n'` (the blank
separators are the empty lines). -/
def PoFile.to_string (f : PoFile) : Str :=
  ((poLines f).map (fun l => l ++ ['\n'])).flatten

/-- `PoFile::save`, with the filesystem write modelled by its outcome:
`writeOk` says whether `fs::write` would succeed.  The result is
`none` for the error return, otherwise the new file state and the
written `(path, contents)` pair, if any write happened. -/
def PoFile.save (writeOk : Bool) (f : PoFile) : Option (PoFile × Option (Str × Str)) :=
  match f.path with
  | some p => if writeOk then some ({ f with modified := false }, some (p, f.to_string)) else none
  | none => some (f, none)

end Poterm

namespace Poterm

/-! ## Session controller (ui.rs: `App`) -/

/-- `EditField` from ui.rs. -/
inductive EditField
  | Msgid
  | Msgstr
  | Comments
  | Metadata
deriving DecidableEq

/-- `FilterMode` from ui.rs. -/
inductive FilterMode
  | All
  | Untranslated
  | Fuzzy
deriving DecidableEq

/-- `PAGE_SIZE` from ui.rs. -/
def PAGE_SIZE : Nat := 10

/-- `App` from ui.rs.  `list_state` is rendering-only state and is
not modelled. -/
structure App where
  po_file : PoFile
  current_entry : Nat
  editing : Bool
  edit_field : EditField
  edit_text : Str
  edit_cursor : Nat
  search_mode : Bool
  search_query : Str
  search_cursor : Nat
  filter_mode : FilterMode
  filtered_indices : List Nat
  help_visible : Bool
  metadata_mode : Bool
  metadata_key : Str
  metadata_keys : List Str
  metadata_selected : Nat
deriving DecidableEq

/-- `App::insert_char_at`: the char index is converted to a byte
index (clamped to the end) and the character inserted there; in the
character model that is a clamped take/drop insertion. -/
def insertCharAt (t : Str) (i : Nat) (c : Char) : Str :=
  t.take i ++ c :: t.drop i

/-- `App::remove_char_at`: remove the `i`-th character if it exists
(`take i ++ drop (i+1)` is the identity when `i` is out of range,
matching the Rust no-op). -/
def removeCharAt (t : Str) (i : Nat) : Str :=
  t.take i ++ t.drop (i + 1)

/-- The filter predicate of `App::update_filtered_indices`. -/
def matchesFilter (fm : FilterMode) (e : PoEntry) : Bool :=
  match fm with
  | .All => true
  | .Untranslated => !e.is_translated
  | .Fuzzy => e.is_fuzzy

/-- The search predicate of `App::update_filtered_indices`. -/
def matchesSearch (q : Str) (e : PoEntry) : Bool :=
  q.isEmpty ||
  containsSub (toLowerStr q) (toLowerStr e.msgid) ||
  containsSub (toLowerStr q) (toLowerStr e.msgstr)

/-- The index scan of `App::update_filtered_indices` (the enumerate
loop, written as a filter over the index range). -/
def computeFiltered (f : PoFile) (fm : FilterMode) (q : Str) : List Nat :=
  (List.range f.entries.length).filter (fun i =>
    match f.entries[i]? with
    | some e => matchesFilter fm e && matchesSearch q e
    | none => false)

/-- `App::update_filtered_indices`, including the clamp of
`current_entry`. -/
def App.update_filtered_indices (a : App) : App :=
  let fi := computeFiltered a.po_file a.filter_mode a.search_query
  let cur := if a.current_entry ≥ fi.length && !fi.isEmpty then fi.length - 1
             else a.current_entry
  { a with filtered_indices := fi, current_entry := cur }

/-- `App::new` (rendering state omitted). -/
def App.new (f : PoFile) : App :=
  App.update_filtered_indices
    { po_file := f
      current_entry := 0
      editing := false
      edit_field := .Msgstr
      edit_text := []
      edit_cursor := 0
      search_mode := false
      search_query := []
      search_cursor := 0
      filter_mode := .All
      filtered_indices := []
      help_visible := false
      metadata_mode := false
      metadata_key := []
      metadata_keys :=
        ["Project-Id-Version".toList, "Language".toList, "Language-Team".toList,
         "Last-Translator".toList, "Report-Msgid-Bugs-To".toList,
         "POT-Creation-Date".toList, "PO-Revision-Date".toList,
         "MIME-Version".toList, "Content-Type".toList,
         "Content-Transfer-Encoding".toList, "Plural-Forms".toList]
      metadata_selected := 0 }

/-- `App::next_entry`. -/
def App.next_entry (a : App) : App :=
  if !a.filtered_indices.isEmpty then
    { a with current_entry := min (a.current_entry + 1) (a.filtered_indices.length - 1) }
  else a

/-- `App::previous_entry`. -/
def App.previous_entry (a : App) : App :=
  if a.current_entry > 0 then { a with current_entry := a.current_entry - 1 } else a

/-- `App::page_up`. -/
def App.page_up (a : App) : App :=
  if a.current_entry ≥ PAGE_SIZE then { a with current_entry := a.current_entry - PAGE_SIZE }
  else { a with current_entry := 0 }

/-- `App::page_down`. -/
def App.page_down (a : App) : App :=
  if !a.filtered_indices.isEmpty then
    { a with current_entry := min (a.current_entry + PAGE_SIZE) (a.filtered_indices.length - 1) }
  else a

/-- `App::go_to_first`. -/
def App.go_to_first (a : App) : App := { a with current_entry := 0 }

/-- `App::go_to_last`. -/
def App.go_to_last (a : App) : App :=
  if !a.filtered_indices.isEmpty then
    { a with current_entry := a.filtered_indices.length - 1 }
  else a

/-- `App::get_current_entry`. -/
def App.get_current_entry (a : App) : Option PoEntry :=
  (a.filtered_indices[a.current_entry]?).bind (fun ai => a.po_file.entries[ai]?)

/-- `App::start_editing`.  `none` models the panic of the direct
index `filtered_indices[current_entry]`.  NOTE (ui.rs line 212): the
cursor is set to `edit_text.len()` — the *byte* length. -/
def App.start_editing (a : App) : Option App :=
  if !a.filtered_indices.isEmpty && !a.search_mode then
    match a.filtered_indices[a.current_entry]? with
    | none => none
    | some ai =>
      match a.po_file.entries[ai]? with
      | none => some a
      | some e =>
        let txt : Str :=
          match a.edit_field with
          | .Msgid => e.msgid
          | .Msgstr => e.msgstr
          | .Comments => joinSep ['\n'] e.comments
          | .Metadata => []
        some { a with editing := true, edit_text := txt, edit_cursor := strByteLen txt }
  else some a

/-- `App::apply_metadata_edit`.  `now` stands for the
`chrono::Utc::now()` timestamp of `update_revision_date`. -/
def App.apply_metadata_edit (now : Str) (a : App) : App :=
  if a.metadata_mode && !a.metadata_key.isEmpty then
    { a with po_file :=
        (a.po_file.set_header_field a.metadata_key a.edit_text).update_revision_date now }
  else a

/-- `App::apply_edit`. -/
def App.apply_edit (now : Str) (a : App) : App :=
  if a.edit_field = .Metadata then a.apply_metadata_edit now
  else
    match a.filtered_indices[a.current_entry]? with
    | none => a
    | some ai =>
      match a.po_file.entries[ai]? with
      | none => a
      | some e =>
        let e' :=
          match a.edit_field with
          | .Msgid => { e with msgid := a.edit_text }
          | .Msgstr => e.set_msgstr a.edit_text
          | .Comments => { e with comments := splitLines a.edit_text }
          | .Metadata => e
        { a with po_file :=
            ({ a.po_file with entries := a.po_file.entries.set ai e' }).mark_modified }

/-- `App::stop_editing`: an in-progress edit is *applied* (not
discarded), then editing mode is left; otherwise search mode is
left. -/
def App.stop_editing (now : Str) (a : App) : App :=
  if a.editing then { a.apply_edit now with editing := false }
  else if a.search_mode then { a with search_mode := false }
  else a

/-- `App::next_field`. -/
def App.next_field (a : App) : App :=
  if !a.editing && !a.metadata_mode then
    { a with edit_field :=
        match a.edit_field with
        | .Msgid => .Msgstr
        | .Msgstr => .Comments
        | .Comments => .Msgid
        | .Metadata => .Metadata }
  else a

/-- `App::previous_field`. -/
def App.previous_field (a : App) : App :=
  if !a.editing && !a.metadata_mode then
    { a with edit_field :=
        match a.edit_field with
        | .Msgid => .Comments
        | .Msgstr => .Msgid
        | .Comments => .Msgstr
        | .Metadata => .Metadata }
  else a

/-- `App::start_search` (byte-length cursor, as in the source). -/
def App.start_search (a : App) : App :=
  { a with search_mode := true, search_cursor := strByteLen a.search_query }

/-- `App::find_next`. -/
def App.find_next (a : App) : App :=
  if !a.search_query.isEmpty then a.update_filtered_indices.next_entry else a

/-- `App::find_previous`. -/
def App.find_previous (a : App) : App :=
  if !a.search_query.isEmpty then a.update_filtered_indices.previous_entry else a

/-- `App::toggle_untranslated_filter`. -/
def App.toggle_untranslated_filter (a : App) : App :=
  App.update_filtered_indices
    { a with filter_mode :=
        match a.filter_mode with
        | .Untranslated => .All
        | _ => .Untranslated }

/-- `App::toggle_fuzzy_filter`. -/
def App.toggle_fuzzy_filter (a : App) : App :=
  App.update_filtered_indices
    { a with filter_mode :=
        match a.filter_mode with
        | .Fuzzy => .All
        | _ => .Fuzzy }

/-- Key codes reaching `App::handle_input`. -/
inductive Key
  | charK (c : Char)
  | backspace
  | delete
  | leftK
  | rightK
  | homeK
  | endK
  | enter
  | otherK
deriving DecidableEq

/-- `App::handle_search_input`. -/
def App.handle_search_input (k : Key) (a : App) : App :=
  match k with
  | .charK c =>
    let a1 := { a with search_query := insertCharAt a.search_query a.search_cursor c,
                       search_cursor := a.search_cursor + 1 }
    { a1.update_filtered_indices with current_entry := 0 }
  | .backspace =>
    if a.search_cursor > 0 then
      let a1 := { a with search_cursor := a.search_cursor - 1,
                         search_query := removeCharAt a.search_query (a.search_cursor - 1) }
      { a1.update_filtered_indices with current_entry := 0 }
    else a
  | .leftK => if a.search_cursor > 0 then { a with search_cursor := a.search_cursor - 1 } else a
  | .rightK =>
    if a.search_cursor < a.search_query.length then
      { a with search_cursor := a.search_cursor + 1 }
    else a
  | .enter => { a with search_mode := false }
  | _ => a

/-- `App::handle_edit_input`. -/
def App.handle_edit_input (now : Str) (k : Key) (a : App) : App :=
  match k with
  | .charK c =>
    { a with edit_text := insertCharAt a.edit_text a.edit_cursor c,
             edit_cursor := a.edit_cursor + 1 }
  | .backspace =>
    if a.edit_cursor > 0 then
      { a with edit_cursor := a.edit_cursor - 1,
               edit_text := removeCharAt a.edit_text (a.edit_cursor - 1) }
    else a
  | .delete =>
    if a.edit_cursor < a.edit_text.length then
      { a with edit_text := removeCharAt a.edit_text a.edit_cursor }
    else a
  | .leftK => if a.edit_cursor > 0 then { a with edit_cursor := a.edit_cursor - 1 } else a
  | .rightK =>
    if a.edit_cursor < a.edit_text.length then { a with edit_cursor := a.edit_cursor + 1 }
    else a
  | .homeK => { a with edit_cursor := 0 }
  | .endK => { a with edit_cursor := a.edit_text.length }
  | .enter =>
    if a.edit_field = .Comments then
      { a with edit_text := insertCharAt a.edit_text a.edit_cursor '\n',
               edit_cursor := a.edit_cursor + 1 }
    else { a.apply_edit now with editing := false }
  | _ => a

/-- `App::handle_input`. -/
def App.handle_input (now : Str) (k : Key) (a : App) : App :=
  if a.search_mode then a.handle_search_input k
  else if a.editing then a.handle_edit_input now k
  else a

/-- `App::toggle_help`. -/
def App.toggle_help (a : App) : App := { a with help_visible := !a.help_visible }

/-- `App::toggle_metadata_mode`. -/
def App.toggle_metadata_mode (a : App) : App :=
  if a.editing then a
  else
    let m := !a.metadata_mode
    { a with metadata_mode := m,
             edit_field := if m then .Metadata else .Msgstr }

/-- `App::start_metadata_editing` (codepoint-length cursor, as in
ui.rs line 451). -/
def App.start_metadata_editing (key : Str) (a : App) : App :=
  if !a.metadata_mode then a
  else
    let txt := (headerLookup a.po_file.header key).getD []
    { a with metadata_key := key, edit_text := txt,
             edit_cursor := txt.length, editing := true }

/-- `App::start_editing_selected_metadata` (`none`: the direct index
`metadata_keys[metadata_selected]` panics when out of range). -/
def App.start_editing_selected_metadata (a : App) : Option App :=
  if a.metadata_mode && !a.metadata_keys.isEmpty && !a.editing then
    match a.metadata_keys[a.metadata_selected]? with
    | none => none
    | some k => some (a.start_metadata_editing k)
  else some a

/-- `App::metadata_next`. -/
def App.metadata_next (a : App) : App :=
  if a.metadata_mode && !a.editing && a.metadata_selected + 1 < a.metadata_keys.length then
    { a with metadata_selected := a.metadata_selected + 1 }
  else a

/-- `App::metadata_previous`. -/
def App.metadata_previous (a : App) : App :=
  if a.metadata_mode && !a.editing && a.metadata_selected > 0 then
    { a with metadata_selected := a.metadata_selected - 1 }
  else a

/-- `App::toggle_current_entry_fuzzy` (`none`: panic of the direct
`filtered_indices[current_entry]` index). -/
def App.toggle_current_entry_fuzzy (now : Str) (a : App) : Option App :=
  if !a.filtered_indices.isEmpty && !a.editing && !a.search_mode then
    match a.filtered_indices[a.current_entry]? with
    | none => none
    | some ai =>
      match a.po_file.entries[ai]? with
      | none => some a
      | some e =>
        if e.msgstr.isEmpty then some a
        else
          some { a with po_file :=
            (({ a.po_file with entries := a.po_file.entries.set ai e.toggle_fuzzy }).mark_modified).update_revision_date now }
  else some a

/-- `App::mark_current_entry_done`. -/
def App.mark_current_entry_done (now : Str) (a : App) : Option App :=
  if !a.filtered_indices.isEmpty && !a.editing && !a.search_mode then
    match a.filtered_indices[a.current_entry]? with
    | none => none
    | some ai =>
      match a.po_file.entries[ai]? with
      | none => some a
      | some e =>
        if !e.msgstr.isEmpty then
          some { a with po_file :=
            (({ a.po_file with entries := a.po_file.entries.set ai e.mark_done }).mark_modified).update_revision_date now }
        else some a
  else some a

/-- `App::save` (result: the new state and what was written). -/
def App.save (writeOk : Bool) (a : App) : Option (App × Option (Str × Str)) :=
  (a.po_file.save writeOk).map (fun r => ({ a with po_file := r.1 }, r.2))

/-- The `Esc` branch of `handle_key_event` (main.rs lines 157-163):
with the help overlay shown it only closes the overlay, otherwise it
calls `stop_editing`. -/
def handleEsc (now : Str) (a : App) : App :=
  if a.help_visible then a.toggle_help else a.stop_editing now

end Poterm

namespace Poterm

/-- The controller-level command surface (the `App` methods invoked
from `handle_key_event` in main.rs).  `saveC`/`saveCurrentEntryC`
carry the outcome of the filesystem write; `now` timestamps are
passed to `applyCmd`. -/
inductive Cmd
  | nextEntryC
  | previousEntryC
  | pageUpC
  | pageDownC
  | goToFirstC
  | goToLastC
  | startEditingC
  | escC
  | keyC (k : Key)
  | nextFieldC
  | previousFieldC
  | startSearchC
  | findNextC
  | findPreviousC
  | toggleUntranslatedFilterC
  | toggleFuzzyFilterC
  | toggleHelpC
  | toggleMetadataModeC
  | startEditSelMetaC
  | metadataNextC
  | metadataPreviousC
  | toggleCurFuzzyC
  | markDoneC
  | saveC (writeOk : Bool)
  | saveCurrentEntryC (writeOk : Bool)
deriving DecidableEq

/-- Apply one command to the session state.  `none` models a panic or
an I/O error aborting the session. -/
def applyCmd (now : Str) (c : Cmd) (a : App) : Option App :=
  match c with
  | .nextEntryC => some a.next_entry
  | .previousEntryC => some a.previous_entry
  | .pageUpC => some a.page_up
  | .pageDownC => some a.page_down
  | .goToFirstC => some a.go_to_first
  | .goToLastC => some a.go_to_last
  | .startEditingC => a.start_editing
  | .escC => some (handleEsc now a)
  | .keyC k => some (a.handle_input now k)
  | .nextFieldC => some a.next_field
  | .previousFieldC => some a.previous_field
  | .startSearchC => some a.start_search
  | .findNextC => some a.find_next
  | .findPreviousC => some a.find_previous
  | .toggleUntranslatedFilterC => some a.toggle_untranslated_filter
  | .toggleFuzzyFilterC => some a.toggle_fuzzy_filter
  | .toggleHelpC => some a.toggle_help
  | .toggleMetadataModeC => some a.toggle_metadata_mode
  | .startEditSelMetaC => a.start_editing_selected_metadata
  | .metadataNextC => some a.metadata_next
  | .metadataPreviousC => some a.metadata_previous
  | .toggleCurFuzzyC => a.toggle_current_entry_fuzzy now
  | .markDoneC => a.mark_current_entry_done now
  | .saveC ok => (a.save ok).map (·.1)
  | .saveCurrentEntryC ok => ((a.apply_edit now).save ok).map (·.1)

/-- The filtered-view invariant of claim C10: the filtered indices
are strictly increasing and in bounds for the entry list. -/
def AppInv (a : App) : Prop :=
  a.filtered_indices.Pairwise (· < ·) ∧
  ∀ i ∈ a.filtered_indices, i < a.po_file.entries.length

end Poterm

namespace Poterm

/-! ## Invariant lemmas for the filtered view -/

theorem computeFiltered_pairwise (f : PoFile) (fm : FilterMode) (q : Str) :
    (computeFiltered f fm q).Pairwise (· < ·) :=
  (List.pairwise_lt_range _).sublist (List.filter_sublist _)

theorem computeFiltered_bound (f : PoFile) (fm : FilterMode) (q : Str) :
    ∀ i ∈ computeFiltered f fm q, i < f.entries.length := by
  intro i hi
  have := (List.mem_filter.mp hi).1
  exact List.mem_range.mp this

/-- Transfer `AppInv` along preservation of the two relevant fields. -/
theorem appInv_of {a : App} (h : AppInv a) (a' : App)
    (hf : a'.filtered_indices = a.filtered_indices)
    (hl : a'.po_file.entries.length = a.po_file.entries.length) : AppInv a' := by
  rcases h with ⟨h1, h2⟩
  refine ⟨hf ▸ h1, ?_⟩
  intro i hi
  rw [hl]
  exact h2 i (hf ▸ hi)

theorem appInv_update_filtered_indices (a : App) :
    AppInv a.update_filtered_indices := by
  refine ⟨computeFiltered_pairwise _ _ _, ?_⟩
  intro i hi
  exact computeFiltered_bound _ _ _ i hi

theorem appInv_apply_metadata_edit (now : Str) (a : App) (h : AppInv a) :
    AppInv (a.apply_metadata_edit now) := by
  unfold App.apply_metadata_edit
  split
  · exact appInv_of h _ rfl rfl
  · exact h

theorem appInv_apply_edit (now : Str) (a : App) (h : AppInv a) :
    AppInv (a.apply_edit now) := by
  unfold App.apply_edit
  split
  · exact appInv_apply_metadata_edit now a h
  · split
    · exact h
    · split
      · exact h
      · exact appInv_of h _ rfl (by simp [PoFile.mark_modified])

theorem appInv_next_entry (a : App) (h : AppInv a) : AppInv a.next_entry := by
  unfold App.next_entry
  split
  · exact appInv_of h _ rfl rfl
  · exact h

theorem appInv_previous_entry (a : App) (h : AppInv a) : AppInv a.previous_entry := by
  unfold App.previous_entry
  split
  · exact appInv_of h _ rfl rfl
  · exact h

theorem appInv_stop_editing (now : Str) (a : App) (h : AppInv a) :
    AppInv (a.stop_editing now) := by
  unfold App.stop_editing
  split
  · exact appInv_of (appInv_apply_edit now a h) _ rfl rfl
  · split
    · exact appInv_of h _ rfl rfl
    · exact h

theorem appInv_handle_search_input (k : Key) (a : App) (h : AppInv a) :
    AppInv (a.handle_search_input k) := by
  cases k with
  | charK c =>
    simp only [App.handle_search_input]
    exact appInv_of (appInv_update_filtered_indices _) _ rfl rfl
  | backspace =>
    simp only [App.handle_search_input]
    split
    · exact appInv_of (appInv_update_filtered_indices _) _ rfl rfl
    · exact h
  | leftK =>
    simp only [App.handle_search_input]
    split
    · exact appInv_of h _ rfl rfl
    · exact h
  | rightK =>
    simp only [App.handle_search_input]
    split
    · exact appInv_of h _ rfl rfl
    · exact h
  | enter =>
    simp only [App.handle_search_input]
    exact appInv_of h _ rfl rfl
  | delete => exact h
  | homeK => exact h
  | endK => exact h
  | otherK => exact h

theorem appInv_handle_edit_input (now : Str) (k : Key) (a : App) (h : AppInv a) :
    AppInv (a.handle_edit_input now k) := by
  cases k with
  | charK c =>
    simp only [App.handle_edit_input]
    exact appInv_of h _ rfl rfl
  | backspace =>
    simp only [App.handle_edit_input]
    split
    · exact appInv_of h _ rfl rfl
    · exact h
  | delete =>
    simp only [App.handle_edit_input]
    split
    · exact appInv_of h _ rfl rfl
    · exact h
  | leftK =>
    simp only [App.handle_edit_input]
    split
    · exact appInv_of h _ rfl rfl
    · exact h
  | rightK =>
    simp only [App.handle_edit_input]
    split
    · exact appInv_of h _ rfl rfl
    · exact h
  | homeK =>
    simp only [App.handle_edit_input]
    exact appInv_of h _ rfl rfl
  | endK =>
    simp only [App.handle_edit_input]
    exact appInv_of h _ rfl rfl
  | enter =>
    simp only [App.handle_edit_input]
    split
    · exact appInv_of h _ rfl rfl
    · exact appInv_of (appInv_apply_edit now a h) _ rfl rfl
  | otherK => exact h

end Poterm

namespace Poterm

theorem appInv_applyCmd (now : Str) (c : Cmd) (a a' : App) (h : AppInv a)
    (hc : applyCmd now c a = some a') : AppInv a' := by
  cases c with
  | nextEntryC =>
    injection hc with hc; subst hc; exact appInv_next_entry a h
  | previousEntryC =>
    injection hc with hc; subst hc; exact appInv_previous_entry a h
  | pageUpC =>
    injection hc with hc; subst hc
    unfold App.page_up
    split
    · exact appInv_of h _ rfl rfl
    · exact appInv_of h _ rfl rfl
  | pageDownC =>
    injection hc with hc; subst hc
    unfold App.page_down
    split
    · exact appInv_of h _ rfl rfl
    · exact h
  | goToFirstC =>
    injection hc with hc; subst hc; exact appInv_of h _ rfl rfl
  | goToLastC =>
    injection hc with hc; subst hc
    unfold App.go_to_last
    split
    · exact appInv_of h _ rfl rfl
    · exact h
  | startEditingC =>
    simp only [applyCmd] at hc
    unfold App.start_editing at hc
    split at hc
    · split at hc
      · exact absurd hc (by simp)
      · split at hc
        · injection hc with hc; subst hc; exact h
        · injection hc with hc; subst hc; exact appInv_of h _ rfl rfl
    · injection hc with hc; subst hc; exact h
  | escC =>
    injection hc with hc; subst hc
    unfold handleEsc
    split
    · exact appInv_of h _ rfl rfl
    · exact appInv_stop_editing now a h
  | keyC k =>
    injection hc with hc; subst hc
    unfold App.handle_input
    split
    · exact appInv_handle_search_input k a h
    · split
      · exact appInv_handle_edit_input now k a h
      · exact h
  | nextFieldC =>
    injection hc with hc; subst hc
    unfold App.next_field
    split
    · exact appInv_of h _ rfl rfl
    · exact h
  | previousFieldC =>
    injection hc with hc; subst hc
    unfold App.previous_field
    split
    · exact appInv_of h _ rfl rfl
    · exact h
  | startSearchC =>
    injection hc with hc; subst hc; exact appInv_of h _ rfl rfl
  | findNextC =>
    injection hc with hc; subst hc
    unfold App.find_next
    split
    · exact appInv_next_entry _ (appInv_update_filtered_indices a)
    · exact h
  | findPreviousC =>
    injection hc with hc; subst hc
    unfold App.find_previous
    split
    · exact appInv_previous_entry _ (appInv_update_filtered_indices a)
    · exact h
  | toggleUntranslatedFilterC =>
    injection hc with hc; subst hc; exact appInv_update_filtered_indices _
  | toggleFuzzyFilterC =>
    injection hc with hc; subst hc; exact appInv_update_filtered_indices _
  | toggleHelpC =>
    injection hc with hc; subst hc; exact appInv_of h _ rfl rfl
  | toggleMetadataModeC =>
    injection hc with hc; subst hc
    unfold App.toggle_metadata_mode
    split
    · exact h
    · exact appInv_of h _ rfl rfl
  | startEditSelMetaC =>
    simp only [applyCmd] at hc
    unfold App.start_editing_selected_metadata at hc
    split at hc
    · split at hc
      · exact absurd hc (by simp)
      · injection hc with hc; subst hc
        unfold App.start_metadata_editing
        split
        · exact h
        · exact appInv_of h _ rfl rfl
    · injection hc with hc; subst hc; exact h
  | metadataNextC =>
    injection hc with hc; subst hc
    unfold App.metadata_next
    split
    · exact appInv_of h _ rfl rfl
    · exact h
  | metadataPreviousC =>
    injection hc with hc; subst hc
    unfold App.metadata_previous
    split
    · exact appInv_of h _ rfl rfl
    · exact h
  | toggleCurFuzzyC =>
    simp only [applyCmd] at hc
    unfold App.toggle_current_entry_fuzzy at hc
    split at hc
    · split at hc
      · exact absurd hc (by simp)
      · split at hc
        · injection hc with hc; subst hc; exact h
        · split at hc
          · injection hc with hc; subst hc; exact h
          · injection hc with hc; subst hc
            exact appInv_of h _ rfl
              (by simp [PoFile.mark_modified, PoFile.update_revision_date,
                PoFile.set_header_field])
    · injection hc with hc; subst hc; exact h
  | markDoneC =>
    simp only [applyCmd] at hc
    unfold App.mark_current_entry_done at hc
    split at hc
    · split at hc
      · exact absurd hc (by simp)
      · split at hc
        · injection hc with hc; subst hc; exact h
        · split at hc
          · injection hc with hc; subst hc
            exact appInv_of h _ rfl
              (by simp [PoFile.mark_modified, PoFile.update_revision_date,
                PoFile.set_header_field])
          · injection hc with hc; subst hc; exact h
    · injection hc with hc; subst hc; exact h
  | saveC ok =>
    simp only [applyCmd, App.save, PoFile.save, Option.map_map] at hc
    split at hc
    · split at hc
      · injection hc with hc; subst hc; exact appInv_of h _ rfl rfl
      · exact absurd hc (by simp)
    · injection hc with hc; subst hc; exact appInv_of h _ rfl rfl
  | saveCurrentEntryC ok =>
    simp only [applyCmd, App.save, PoFile.save, Option.map_map] at hc
    have h2 := appInv_apply_edit now a h
    split at hc
    · split at hc
      · injection hc with hc; subst hc; exact appInv_of h2 _ rfl rfl
      · exact absurd hc (by simp)
    · injection hc with hc; subst hc; exact appInv_of h2 _ rfl rfl

theorem appInv_new (f : PoFile) : AppInv (App.new f) :=
  appInv_update_filtered_indices _

end Poterm

namespace Poterm

/-! ## Claim C7: filter/search composition -/

theorem mem_computeFiltered (f : PoFile) (fm : FilterMode) (q : Str) (i : Nat) :
    i ∈ computeFiltered f fm q ↔
      ∃ e, f.entries[i]? = some e ∧
        matchesFilter fm e = true ∧ matchesSearch q e = true := by
  unfold computeFiltered
  rw [List.mem_filter, List.mem_range]
  constructor
  · rintro ⟨hlt, hp⟩
    cases he : f.entries[i]? with
    | none => rw [he] at hp; exact absurd hp (by simp)
    | some e =>
      rw [he] at hp
      simp only [Bool.and_eq_true] at hp
      exact ⟨e, rfl, hp.1, hp.2⟩
  · rintro ⟨e, he, h1, h2⟩
    have hlt : i < f.entries.length := by
      rw [List.getElem?_eq_some] at he
      exact he.1
    refine ⟨hlt, ?_⟩
    rw [he]
    simp [h1, h2]

/-- C7: for every session state, after recomputing the filtered view
an index is in the view iff its entry satisfies both the filter
predicate (`All`: always; `Untranslated`: not translated; `Fuzzy`:
fuzzy) and the search predicate (empty query matches everything,
otherwise a case-insensitive substring match against `msgid` or
`msgstr`). -/
theorem C7_filter_search_composition (a : App) (i : Nat) :
    i ∈ (a.update_filtered_indices).filtered_indices ↔
      ∃ e, a.po_file.entries[i]? = some e ∧
        matchesFilter a.filter_mode e = true ∧
        matchesSearch a.search_query e = true :=
  mem_computeFiltered a.po_file a.filter_mode a.search_query i

/-! ## Claim C10: the filtered-view invariant -/

/-- C10: the filtered-index sequence is strictly increasing with all
elements in bounds for the entry list, at session construction and
after every command that completes normally. -/
theorem C10_filtered_view_invariant :
    (∀ f, AppInv (App.new f)) ∧
    (∀ now c a a', AppInv a → applyCmd now c a = some a' → AppInv a') :=
  ⟨appInv_new, fun now c a a' h hc => appInv_applyCmd now c a a' h hc⟩

/-- Demo catalog for the C10 witness. -/
def demoPo10 : PoFile :=
  { path := none, header := [],
    entries := [{ PoEntry.new with msgid := "a".toList },
                { PoEntry.new with msgid := "b".toList }],
    modified := false }

theorem C10_witness :
    AppInv (App.new demoPo10) ∧ AppInv ((App.new demoPo10).next_entry) := by
  have h1 := C10_filtered_view_invariant.1 demoPo10
  have h2 := C10_filtered_view_invariant.2 [] Cmd.nextEntryC (App.new demoPo10)
    ((App.new demoPo10).next_entry) h1 rfl
  exact ⟨h1, h2⟩

/-! ## Claim C4: the parser on unmatched lines -/

/-- The outer parse loop makes no progress on the line `foo`. -/
theorem parseLoopF_foo_step (n : Nat) (acc : PoFile) (b : Bool) :
    parseLoopF (n + 1) acc b ["foo".toList] = parseLoopF n acc false ["foo".toList] := by
  cases b <;> rfl

/-- C4 (refuted): the claim says `parse` returns a Catalog for every
input.  On any non-blank line that matches no rule — such as `foo`, or
an obsolete-entry line `#~ ...` — the loop index is never advanced, so
the Rust loop runs forever: for every amount of fuel the model returns
`none`. -/
theorem C4_parse_never_returns_on_unmatched_line :
    (∀ fuel acc b, parseLoopF fuel acc b ["foo".toList] = none) ∧
    parse "foo".toList = none ∧
    parse "#~ obsolete".toList = none := by
  refine ⟨?_, by decide, by decide⟩
  intro fuel
  induction fuel with
  | zero => intro acc b; rfl
  | succ n ih =>
    intro acc b
    rw [parseLoopF_foo_step]
    exact ih acc false

end Poterm

namespace Poterm

/-! ## Claim C6: begin-edit cursor placement -/

/-- Demo catalog for C6: the translation has 3 codepoints and 6 UTF-8
bytes. -/
def demoPo6 : PoFile :=
  { path := none, header := [],
    entries := [{ PoEntry.new with msgid := "m".toList, msgstr := "мир".toList }],
    modified := false }

/-- C6 (code bug): begin-edit on a non-empty view should set the
cursor to end-of-text in codepoints, but `start_editing` (ui.rs line
212) uses `edit_text.len()` — the byte length.  On the 3-codepoint
translation `мир` the cursor lands at 6, not 3 (the sibling
`start_metadata_editing` uses `chars().count()`, the intended
measure). -/
theorem C6_start_editing_sets_byte_cursor :
    ((App.new demoPo6).start_editing).map (fun a => (a.edit_cursor, a.edit_text.length))
      = some (6, 3) ∧
    strByteLen "мир".toList = 6 ∧ ("мир".toList).length = 3 := by
  refine ⟨by decide, by decide, by decide⟩

/-! ## Claim C9: save -/

/-- A pathless modified catalog: `save` succeeds without writing. -/
def demoPoNoPath : PoFile :=
  { path := none, header := [], entries := [], modified := true }

/-- C9 counterexample: `save` on a catalog with no path returns
success, writes nothing, and leaves `modified` set — contradicting
"whenever save returns success ... written to its path and the
modified flag is false afterwards". -/
theorem C9_counterexample :
    demoPoNoPath.save true = some (demoPoNoPath, none) ∧
    demoPoNoPath.modified = true := by
  exact ⟨by decide, by decide⟩

/-- C9 (amended): whenever `save` returns success *and the catalog
has a path*, the serialized text has been written to that path and
`modified` is false afterwards; with no path, `save` succeeds as a
complete no-op (nothing written, state unchanged). -/
theorem C9_amended (ok : Bool) (f f' : PoFile) (w : Option (Str × Str))
    (h : f.save ok = some (f', w)) :
    (∀ p, f.path = some p → w = some (p, f.to_string) ∧ f'.modified = false) ∧
    (f.path = none → f' = f ∧ w = none) := by
  unfold PoFile.save at h
  split at h
  · rename_i p hp
    split at h
    · injection h with h
      injection h with h1 h2
      subst h1; subst h2
      constructor
      · intro p' hp'
        rw [hp] at hp'
        injection hp' with hp'
        subst hp'
        exact ⟨rfl, rfl⟩
      · intro hn; rw [hp] at hn; exact absurd hn (by simp)
    · exact absurd h (by simp)
  · rename_i hp
    injection h with h
    injection h with h1 h2
    subst h1; subst h2
    exact ⟨fun p hp' => absurd hp' (by rw [hp]; simp), fun _ => ⟨rfl, rfl⟩⟩

/-- A catalog with a path, for the C9 witness. -/
def demoPoWithPath : PoFile :=
  { path := some "x.po".toList, header := [], entries := [], modified := true }

theorem C9_witness :
    demoPoWithPath.save true
      = some ({ demoPoWithPath with modified := false },
              some ("x.po".toList, demoPoWithPath.to_string)) ∧
    ({ demoPoWithPath with modified := false } : PoFile).modified = false := by
  have h : demoPoWithPath.save true
      = some ({ demoPoWithPath with modified := false },
              some ("x.po".toList, demoPoWithPath.to_string)) := by decide
  exact ⟨h, ((C9_amended true demoPoWithPath _ _ h).1 ("x.po".toList) rfl).2⟩

end Poterm

namespace Poterm

/-! ## Claim C1: the Esc command while editing -/

/-- `apply_edit` only ever changes the `po_file` field. -/
theorem apply_edit_only_po_file (now : Str) (a : App) :
    a.apply_edit now = { a with po_file := (a.apply_edit now).po_file } := by
  unfold App.apply_edit App.apply_metadata_edit
  split
  · split <;> rfl
  · split
    · rfl
    · split
      · rfl
      · rfl

/-- Demo session for C1: editing the `msgstr` field with a buffer
that differs from the stored translation. -/
def app1 : App :=
  { App.new { path := none, header := [],
              entries := [{ PoEntry.new with msgid := "a".toList, msgstr := "old".toList }],
              modified := false } with
    editing := true, edit_field := .Msgstr, edit_text := "new".toList }

/-- C1 counterexample: in a state that is editing with the help
overlay hidden, `Esc` does *not* leave the catalog unchanged — the
buffer is committed and the modified flag set. -/
theorem C1_counterexample :
    app1.editing = true ∧ app1.help_visible = false ∧
    (handleEsc [] app1).po_file ≠ app1.po_file ∧
    (handleEsc [] app1).po_file.modified = true := by
  refine ⟨by decide, by decide, by decide, by decide⟩

/-- C1 (amended): applying the cancel command (`Esc`, help overlay
not shown) while an edit is in progress leaves the editing state, but
instead of discarding the buffer it *applies* it — the catalog is
mutated exactly as by `apply_edit` (committing the buffer and marking
the catalog modified when a target exists), and every other session
field is unchanged. -/
theorem C1_amended (now : Str) (a : App)
    (he : a.editing = true) (hh : a.help_visible = false) :
    handleEsc now a = { a.apply_edit now with editing := false } ∧
    a.apply_edit now = { a with po_file := (a.apply_edit now).po_file } := by
  refine ⟨?_, apply_edit_only_po_file now a⟩
  unfold handleEsc
  rw [hh]
  simp only [Bool.false_eq_true, if_false]
  unfold App.stop_editing
  rw [he]
  simp only [if_true]

theorem C1_witness :
    app1.editing = true ∧ app1.help_visible = false ∧
    handleEsc [] app1 = { app1.apply_edit [] with editing := false } :=
  ⟨by decide, by decide, (C1_amended [] app1 (by decide) (by decide)).1⟩

/-! ## Claim C8: controller-level no-op guards -/

/-- C8: `toggle_current_entry_fuzzy` and `mark_current_entry_done`
are complete no-ops (the session state, including catalog, flags,
modified bit and header, is returned unchanged) whenever an edit is
in progress, search mode is active, or the current entry's `msgstr`
is empty. -/
theorem C8_policy_noops (now : Str) (a : App)
    (h : a.editing = true ∨ a.search_mode = true ∨
         (∃ e, a.get_current_entry = some e ∧ e.msgstr = [])) :
    a.toggle_current_entry_fuzzy now = some a ∧
    a.mark_current_entry_done now = some a := by
  constructor
  · unfold App.toggle_current_entry_fuzzy
    rcases h with he | hs | ⟨e, he, hm⟩
    · rw [he]; simp
    · rw [hs]; simp
    · split
      · unfold App.get_current_entry at he
        rcases Option.bind_eq_some.mp he with ⟨ai, hai, hei⟩
        simp [hai, hei, hm]
      · rfl
  · unfold App.mark_current_entry_done
    rcases h with he | hs | ⟨e, he, hm⟩
    · rw [he]; simp
    · rw [hs]; simp
    · split
      · unfold App.get_current_entry at he
        rcases Option.bind_eq_some.mp he with ⟨ai, hai, hei⟩
        simp [hai, hei, hm]
      · rfl

/-- Demo session for C8: a single untranslated entry. -/
def app8 : App :=
  App.new { path := none, header := [],
            entries := [{ PoEntry.new with msgid := "a".toList }],
            modified := false }

theorem C8_witness :
    (∃ e, app8.get_current_entry = some e ∧ e.msgstr = []) ∧
    app8.toggle_current_entry_fuzzy [] = some app8 ∧
    app8.mark_current_entry_done [] = some app8 := by
  have hx : (∃ e, app8.get_current_entry = some e ∧ e.msgstr = []) :=
    ⟨{ PoEntry.new with msgid := "a".toList }, by decide, rfl⟩
  exact ⟨hx, C8_policy_noops [] app8 (Or.inr (Or.inr hx))⟩

end Poterm

namespace Poterm

/-! ## String toolbox: trim, split and join lemmas -/

theorem trimLeft_nil : trimLeft [] = [] := rfl

theorem trimRight_nil : trimRight [] = [] := rfl

theorem trimLeft_cons (c : Char) (t : Str) :
    trimLeft (c :: t) = if isWS c then trimLeft t else c :: t := by
  simp [trimLeft, List.dropWhile_cons]

theorem trimRight_append (u v : Str) :
    trimRight (u ++ v) = if trimRight v = [] then trimRight u else u ++ trimRight v := by
  unfold trimRight
  rw [List.reverse_append, List.dropWhile_append]
  by_cases h : v.reverse.dropWhile isWS = []
  · simp [h]
  · rw [if_neg (by simpa using h), if_neg (by simpa [List.isEmpty_iff] using h)]
    simp

theorem trimRight_singleton (c : Char) :
    trimRight [c] = if isWS c then [] else [c] := by
  unfold trimRight
  by_cases h : isWS c <;> simp [List.dropWhile, h]

theorem trimRight_cons (x : Char) (xs : Str) :
    trimRight (x :: xs) = if trimRight xs = [] then trimRight [x] else x :: trimRight xs := by
  have h : (x :: xs) = [x] ++ xs := rfl
  rw [h, trimRight_append]
  split <;> rfl

theorem trimRight_cons_nonws (x : Char) (xs : Str) (h : isWS x = false) :
    trimRight (x :: xs) = x :: trimRight xs := by
  rw [trimRight_cons, trimRight_singleton, h]
  split
  · simp_all
  · rfl

theorem trim_cons_nonws (c : Char) (t : Str) (h : isWS c = false) :
    trim (c :: t) = c :: trimRight t := by
  unfold trim
  rw [trimLeft_cons, h]
  simp only [Bool.false_eq_true, if_false]
  exact trimRight_cons_nonws c t h

theorem trim_cons_ws (c : Char) (t : Str) (h : isWS c = true) :
    trim (c :: t) = trim t := by
  unfold trim
  rw [trimLeft_cons, h]
  simp

/-- A line with non-whitespace first and last characters is already
trimmed. -/
theorem trim_wrap (c d : Char) (u : Str) (hc : isWS c = false) (hd : isWS d = false) :
    trim (c :: (u ++ [d])) = c :: (u ++ [d]) := by
  rw [trim_cons_nonws c _ hc, trimRight_append, trimRight_singleton, hd]
  simp

theorem trimRight_length_le (s : Str) : (trimRight s).length ≤ s.length := by
  unfold trimRight
  simpa using (List.dropWhile_sublist (l := s.reverse) (p := isWS)).length_le

theorem trimLeft_length_le (s : Str) : (trimLeft s).length ≤ s.length :=
  (List.dropWhile_sublist _).length_le

/-- A non-empty right-trimmed string ends in a non-whitespace
character. -/
theorem trimmed_last_nonws (f : Str) (hf : trimRight f = f) (hne : f ≠ []) :
    ∃ f0 lc, f = f0 ++ [lc] ∧ isWS lc = false := by
  refine ⟨f.dropLast, f.getLast hne, (List.dropLast_append_getLast hne).symm, ?_⟩
  cases h : isWS (f.getLast hne)
  · rfl
  · exfalso
    have hdec : List.dropLast f ++ [List.getLast f hne] = f :=
      List.dropLast_append_getLast hne
    have hthis := trimRight_append f.dropLast [f.getLast hne]
    rw [trimRight_singleton, h] at hthis
    simp only [if_true, if_pos rfl] at hthis
    rw [hdec, hf] at hthis
    have hlen := trimRight_length_le f.dropLast
    rw [← hthis] at hlen
    have hlf : f.length = f.dropLast.length + 1 := by
      rw [List.length_dropLast]
      have : 0 < f.length := List.length_pos.mpr hne
      omega
    omega

/-- Membership transfers out of `trimRight`. -/
theorem mem_of_mem_trimRight (a : Char) (s : Str) (h : a ∈ trimRight s) : a ∈ s := by
  unfold trimRight at h
  rw [List.mem_reverse] at h
  exact List.mem_reverse.mp ((List.dropWhile_sublist _).subset h)

theorem mem_of_mem_trimLeft (a : Char) (s : Str) (h : a ∈ trimLeft s) : a ∈ s :=
  (List.dropWhile_sublist _).subset h

theorem mem_of_mem_trim (a : Char) (s : Str) (h : a ∈ trim s) : a ∈ s :=
  mem_of_mem_trimLeft a s (mem_of_mem_trimRight a (trimLeft s) h)

theorem dropWhile_idem (p : Char → Bool) (l : Str) :
    (l.dropWhile p).dropWhile p = l.dropWhile p := by
  induction l with
  | nil => rfl
  | cons x xs ih =>
    by_cases h : p x
    · simp [List.dropWhile_cons, h, ih]
    · simp [List.dropWhile_cons, h]

theorem trimLeft_idem (s : Str) : trimLeft (trimLeft s) = trimLeft s :=
  dropWhile_idem isWS s

theorem trimRight_idem (s : Str) : trimRight (trimRight s) = trimRight s := by
  unfold trimRight
  rw [List.reverse_reverse]
  rw [dropWhile_idem]

/-- A left-trimmed string stays left-trimmed after right-trimming. -/
theorem trimLeft_trimRight (u : Str) (h : trimLeft u = u) :
    trimLeft (trimRight u) = trimRight u := by
  cases u with
  | nil => rfl
  | cons x xs =>
    have hx : isWS x = false := by
      by_contra hw
      have hw' : isWS x = true := by
        cases hh : isWS x
        · exact absurd hh hw
        · rfl
      rw [trimLeft_cons] at h
      rw [hw'] at h
      simp only [if_true] at h
      have hlen := trimLeft_length_le xs
      rw [h] at hlen
      simp at hlen
    rw [trimRight_cons_nonws x xs hx, trimLeft_cons, hx]
    simp

theorem trim_idem (s : Str) : trim (trim s) = trim s := by
  unfold trim
  rw [trimLeft_trimRight (trimLeft s) (trimLeft_idem s), trimRight_idem]

theorem trimRight_trim (s : Str) : trimRight (trim s) = trim s := by
  unfold trim
  rw [trimRight_idem]

theorem trimLeft_trim (s : Str) : trimLeft (trim s) = trim s := by
  unfold trim
  exact trimLeft_trimRight (trimLeft s) (trimLeft_idem s)

end Poterm

namespace Poterm

/-! ## splitOnChar, findIdx1 and splitLines lemmas -/

theorem splitOnChar_ne_nil (c : Char) (s : Str) : splitOnChar c s ≠ [] := by
  induction s with
  | nil => simp [splitOnChar]
  | cons x xs ih =>
    unfold splitOnChar
    split
    · simp
    · split
      · simp
      · simp

theorem splitOnChar_no_sep (c : Char) (s : Str) (h : c ∉ s) :
    splitOnChar c s = [s] := by
  induction s with
  | nil => rfl
  | cons x xs ih =>
    unfold splitOnChar
    rw [if_neg (by intro he; exact h (he ▸ List.mem_cons_self x xs))]
    rw [ih (fun hm => h (List.mem_cons_of_mem x hm))]

theorem splitOnChar_cons_eq (c x : Char) (xs : Str) :
    splitOnChar c (x :: xs) =
      if x = c then [] :: splitOnChar c xs
      else
        match splitOnChar c xs with
        | [] => [[x]]
        | h :: t => (x :: h) :: t := rfl

theorem splitOnChar_append_sep (c : Char) (a b : Str) (ha : c ∉ a) :
    splitOnChar c (a ++ c :: b) = a :: splitOnChar c b := by
  induction a with
  | nil => simp [splitOnChar]
  | cons x xs ih =>
    have hx : x ≠ c := fun he => ha (he ▸ List.mem_cons_self x xs)
    rw [List.cons_append, splitOnChar_cons_eq, if_neg hx,
      ih (fun hm => ha (List.mem_cons_of_mem x hm))]

/-- Every piece of a split is separator-free and made of characters
of the input. -/
theorem splitOnChar_pieces (c : Char) (s : Str) :
    ∀ p ∈ splitOnChar c s, c ∉ p ∧ ∀ x ∈ p, x ∈ s := by
  induction s with
  | nil =>
    intro p hp
    simp [splitOnChar] at hp
    subst hp
    simp
  | cons y ys ih =>
    intro p hp
    unfold splitOnChar at hp
    by_cases hy : y = c
    · rw [if_pos hy] at hp
      rcases List.mem_cons.mp hp with h1 | h2
      · simp [h1]
      · obtain ⟨hc, hsub⟩ := ih p h2
        exact ⟨hc, fun x hx => List.mem_cons_of_mem y (hsub x hx)⟩
    · rw [if_neg hy] at hp
      rcases hsp : splitOnChar c ys with _ | ⟨h, t⟩
      · exact absurd hsp (splitOnChar_ne_nil c ys)
      · rw [hsp] at hp
        rcases List.mem_cons.mp hp with h1 | h2
        · subst h1
          have hh := ih h (by rw [hsp]; exact List.mem_cons_self h t)
          constructor
          · intro hm
            rcases List.mem_cons.mp hm with rfl | hm2
            · exact hy rfl
            · exact hh.1 hm2
          · intro x hx
            rcases List.mem_cons.mp hx with rfl | hx2
            · exact List.mem_cons_self x ys
            · exact List.mem_cons_of_mem y (hh.2 x hx2)
        · obtain ⟨hc, hsub⟩ := ih p (by rw [hsp]; exact List.mem_cons_of_mem h h2)
          exact ⟨hc, fun x hx => List.mem_cons_of_mem y (hsub x hx)⟩

theorem findIdx1_append_sep (c : Char) (a b : Str) (ha : c ∉ a) :
    findIdx1 c (a ++ c :: b) = some a.length := by
  induction a with
  | nil => simp [findIdx1]
  | cons x xs ih =>
    have hx : x ≠ c := fun he => ha (he ▸ List.mem_cons_self x xs)
    rw [List.cons_append]
    unfold findIdx1
    rw [if_neg hx, ih (fun hm => ha (List.mem_cons_of_mem x hm))]
    rfl

/-- The first-occurrence index returned by `findIdx1` splits the
string into a separator-free prefix, the separator and the rest. -/
theorem findIdx1_spec (c : Char) (s : Str) (j : Nat) (h : findIdx1 c s = some j) :
    c ∉ s.take j ∧ s.drop j ≠ [] ∧ s.drop (j + 1) = (s.drop j).drop 1 ∧
      j < s.length := by
  induction s generalizing j with
  | nil => exact absurd h (by simp [findIdx1])
  | cons x xs ih =>
    unfold findIdx1 at h
    by_cases hx : x = c
    · rw [if_pos hx] at h
      injection h with h
      subst h
      simp
    · rw [if_neg hx] at h
      cases hf : findIdx1 c xs with
      | none => rw [hf] at h; exact absurd h (by simp)
      | some j' =>
        rw [hf] at h
        have hmap : some (j' + 1) = some j := h
        injection hmap with hmap
        subst hmap
        obtain ⟨h1, h2, h3, h4⟩ := ih j' hf
        refine ⟨?_, by exact h2, by exact h3, by simp only [List.length_cons]; omega⟩
        intro hm
        rw [List.take_succ_cons] at hm
        rcases List.mem_cons.mp hm with rfl | hm2
        · exact hx rfl
        · exact h1 hm2

end Poterm

namespace Poterm

/-! ## splitLines lemmas -/

theorem splitLinesGo_no_newline (rest : Str) :
    ∀ acc : Str, '\n' ∉ acc → ∀ l ∈ splitLinesGo acc rest, '\n' ∉ l := by
  induction rest with
  | nil =>
    intro acc hacc l hl
    simp only [splitLinesGo, List.mem_singleton] at hl
    subst hl
    simpa using hacc
  | cons c r ih =>
    intro acc hacc l hl
    unfold splitLinesGo at hl
    by_cases hc : c = '\n'
    · rw [if_pos hc] at hl
      rcases List.mem_cons.mp hl with h1 | h2
      · subst h1
        cases acc with
        | nil => simp [stripCRrev]
        | cons a0 at0 =>
          simp only [stripCRrev]
          by_cases ha : a0 = '\r'
          · rw [if_pos ha]
            intro hm
            rw [List.mem_reverse] at hm
            exact hacc (List.mem_cons_of_mem _ hm)
          · rw [if_neg ha]
            intro hm
            exact hacc (List.mem_reverse.mp hm)
      · rcases r with _ | ⟨c2, r2⟩
        · simp at h2
        · exact ih [] (by simp) l h2
    · rw [if_neg hc] at hl
      refine ih (c :: acc) ?_ l hl
      intro hm
      rcases List.mem_cons.mp hm with h1 | h2
      · exact hc h1.symm
      · exact hacc h2

/-- Every line produced by `splitLines` is newline-free. -/
theorem splitLines_no_newline (s : Str) : ∀ l ∈ splitLines s, '\n' ∉ l := by
  unfold splitLines
  cases s with
  | nil => simp
  | cons c r => exact splitLinesGo_no_newline (c :: r) [] (by simp)

theorem splitLines_eq_go (s : Str) (h : s ≠ []) : splitLines s = splitLinesGo [] s := by
  cases s with
  | nil => exact absurd rfl h
  | cons c r => rfl

theorem splitLinesGo_cons (acc : Str) (c : Char) (rest : Str) :
    splitLinesGo acc (c :: rest) =
      if c = '\n' then
        stripCRrev acc ::
          (match rest with
           | [] => []
           | _ :: _ => splitLinesGo [] rest)
      else splitLinesGo (c :: acc) rest := rfl

theorem splitLinesGo_line (l : Str) (hl : '\n' ∉ l) :
    ∀ (acc r : Str),
      splitLinesGo acc (l ++ '\n' :: r) =
        stripCRrev (l.reverse ++ acc) ::
          (match r with
           | [] => []
           | _ :: _ => splitLinesGo [] r) := by
  induction l with
  | nil =>
    intro acc r
    simp only [List.nil_append, List.reverse_nil]
    rw [splitLinesGo_cons, if_pos rfl]
  | cons c lt ih =>
    intro acc r
    have hc : c ≠ '\n' := fun he => hl (he ▸ List.mem_cons_self c lt)
    rw [List.cons_append, splitLinesGo_cons, if_neg hc,
      ih (fun hm => hl (List.mem_cons_of_mem c hm)) (c :: acc) r,
      List.reverse_cons, List.append_assoc]
    rfl

/-- A line that does not end in `'\r'` survives the CR-stripping. -/
theorem stripCRrev_reverse (l : Str) (h : l.getLast? ≠ some '\r') :
    stripCRrev l.reverse = l := by
  cases hrev : l.reverse with
  | nil =>
    have h0 : l = [] := by simpa using congrArg List.reverse hrev
    subst h0
    rfl
  | cons c t =>
    have hc : c ≠ '\r' := by
      intro he
      apply h
      rw [List.getLast?_eq_head?_reverse, hrev, he]
      rfl
    have hl : l = (c :: t).reverse := by
      have h2 := congrArg List.reverse hrev
      rw [List.reverse_reverse] at h2
      exact h2
    simp only [stripCRrev]
    rw [if_neg hc, ← hrev, List.reverse_reverse]

/-- `str::lines` undoes the serializer's line concatenation. -/
theorem splitLines_join (lines : List Str)
    (h : ∀ l ∈ lines, '\n' ∉ l ∧ l.getLast? ≠ some '\r') :
    splitLines ((lines.map (fun l => l ++ ['\n'])).flatten) = lines := by
  induction lines with
  | nil => rfl
  | cons l rest ih =>
    have hl := h l (List.mem_cons_self l rest)
    have hflat : ((l :: rest).map (fun l => l ++ ['\n'])).flatten
        = l ++ '\n' :: (rest.map (fun l => l ++ ['\n'])).flatten := by
      simp
    rw [hflat]
    rw [splitLines_eq_go _ (by cases l <;> simp)]
    rw [splitLinesGo_line l hl.1 [] _]
    rw [List.append_nil, stripCRrev_reverse l hl.2]
    cases rest with
    | nil => rfl
    | cons r0 rr =>
      have hne2 : ((r0 :: rr).map (fun l => l ++ ['\n'])).flatten ≠ [] := by
        cases r0 <;> simp
      have ihr := ih (fun l' hl' => h l' (List.mem_cons_of_mem l hl'))
      rw [splitLines_eq_go _ hne2] at ihr
      cases hf : ((r0 :: rr).map (fun l => l ++ ['\n'])).flatten with
      | nil => exact absurd hf hne2
      | cons x xs =>
        rw [hf] at ihr
        show l :: splitLinesGo [] (x :: xs) = l :: r0 :: rr
        rw [ihr]

end Poterm

namespace Poterm

/-! ## Flags line round-trip -/

theorem trim_eq_self_parts (f : Str) (h : trim f = f) :
    trimLeft f = f ∧ trimRight f = f := by
  constructor
  · have h2 := trimLeft_trim f
    rw [h] at h2
    exact h2
  · have h2 := trimRight_trim f
    rw [h] at h2
    exact h2

/-- Splitting the right-trimmed joined flags recovers the flags, for
trimmed comma-free flags. -/
theorem joinSep_split_trim (fs : List Str) (hne : fs ≠ [])
    (hwf : ∀ f ∈ fs, trim f = f ∧ ',' ∉ f) :
    (splitOnChar ',' (trimRight (' ' :: joinSep [',', ' '] fs))).map trim = fs := by
  induction fs with
  | nil => exact absurd rfl hne
  | cons f rest ih =>
    obtain ⟨hf, hfc⟩ := hwf f (List.mem_cons_self f rest)
    have hfr : trimRight f = f := (trim_eq_self_parts f hf).2
    cases rest with
    | nil =>
      simp only [joinSep]
      by_cases hfe : f = []
      · subst hfe
        decide
      · obtain ⟨f0, lc, hdec, hlc⟩ := trimmed_last_nonws f hfr hfe
        have htr : trimRight (' ' :: f) = ' ' :: f := by
          rw [hdec]
          have hcons : (' ' :: (f0 ++ [lc])) = ((' ' :: f0) ++ [lc]) := by simp
          rw [hcons, trimRight_append, trimRight_singleton, hlc]
          simp
        rw [htr]
        have hcf : ',' ∉ (' ' :: f) := by
          intro hm
          rcases List.mem_cons.mp hm with h1 | h2
          · exact absurd h1.symm (by decide)
          · exact hfc h2
        rw [splitOnChar_no_sep ',' _ hcf]
        simp only [List.map_cons, List.map_nil]
        rw [trim_cons_ws ' ' f (by decide), hf]
    | cons f2 t =>
      have hJ : joinSep [',', ' '] (f :: f2 :: t)
          = f ++ ',' :: ' ' :: joinSep [',', ' '] (f2 :: t) := by
        simp [joinSep]
      rw [hJ]
      have hsplit : (' ' :: (f ++ ',' :: ' ' :: joinSep [',', ' '] (f2 :: t)))
          = ((' ' :: f) ++ (',' :: (' ' :: joinSep [',', ' '] (f2 :: t)))) := by simp
      rw [hsplit, trimRight_append]
      have hne2 : trimRight (',' :: (' ' :: joinSep [',', ' '] (f2 :: t))) ≠ [] := by
        rw [trimRight_cons_nonws ',' _ (by decide)]
        simp
      rw [if_neg hne2, trimRight_cons_nonws ',' _ (by decide)]
      have hcf : ',' ∉ (' ' :: f) := by
        intro hm
        rcases List.mem_cons.mp hm with h1 | h2
        · exact absurd h1.symm (by decide)
        · exact hfc h2
      rw [splitOnChar_append_sep ',' _ _ hcf]
      simp only [List.map_cons]
      rw [trim_cons_ws ' ' f (by decide), hf]
      rw [ih (by simp) (fun g hg => hwf g (List.mem_cons_of_mem f hg))]

/-- The flags metadata line written by the serializer reparses to the
original flags. -/
theorem flags_line_roundtrip (fs : List Str) (hne : fs ≠ [])
    (hwf : ∀ f ∈ fs, trim f = f ∧ ',' ∉ f) :
    (splitOnChar ',' ((trim ('#' :: ',' :: ' ' :: joinSep [',', ' '] fs)).drop 2)).map trim
      = fs := by
  rw [trim_cons_nonws '#' _ (by decide), trimRight_cons_nonws ',' _ (by decide)]
  simp only [List.drop_succ_cons, List.drop_zero]
  exact joinSep_split_trim fs hne hwf

end Poterm

namespace Poterm

/-! ## Header map lemmas -/

/-- The serialized form of one header pair before quoting/escaping:
`key: value`. -/
def hline (p : Str × Str) : Str := p.1 ++ ':' :: ' ' :: p.2

theorem headerInsert_fresh (h : List (Str × Str)) (k v : Str)
    (hf : ∀ p ∈ h, p.1 ≠ k) : headerInsert h k v = h ++ [(k, v)] := by
  unfold headerInsert
  have hany : h.any (fun p => p.1 == k) = false := by
    rw [List.any_eq_false]
    intro p hp
    simpa using hf p hp
  rw [hany]
  simp

/-- One `headerMerge` fold step on a well-shaped `key: value` line is
a `headerInsert`. -/
theorem headerMerge_step (acc : List (Str × Str)) (k v : Str)
    (hk : ':' ∉ k) (htk : trim k = k) (htv : trim v = v) :
    (match findIdx1 ':' (hline (k, v)) with
     | none => acc
     | some j =>
       headerInsert acc (trim ((hline (k, v)).take j)) (trim ((hline (k, v)).drop (j + 1))))
      = headerInsert acc k v := by
  unfold hline
  rw [findIdx1_append_sep ':' k (' ' :: v) hk]
  have h1 : (k ++ ':' :: ' ' :: v).take k.length = k := List.take_left ..
  have h2 : (k ++ ':' :: ' ' :: v).drop (k.length + 1) = ' ' :: v := by
    simp
  show headerInsert acc (trim ((k ++ ':' :: ' ' :: v).take k.length))
      (trim ((k ++ ':' :: ' ' :: v).drop (k.length + 1))) = headerInsert acc k v
  rw [h1, h2, htk, trim_cons_ws ' ' v (by decide), htv]

/-- Folding the serialized header lines over a disjoint accumulator
appends the header pairs in order. -/
theorem headerMerge_lines (hdr : List (Str × Str)) :
    ∀ acc : List (Str × Str),
    (∀ p ∈ hdr, ':' ∉ p.1 ∧ trim p.1 = p.1 ∧ trim p.2 = p.2) →
    (∀ p ∈ hdr, ∀ q ∈ acc, q.1 ≠ p.1) →
    (hdr.map Prod.fst).Nodup →
    ((hdr.map hline).foldl
      (fun acc line =>
        match findIdx1 ':' line with
        | none => acc
        | some j => headerInsert acc (trim (line.take j)) (trim (line.drop (j + 1))))
      acc)
      = acc ++ hdr := by
  induction hdr with
  | nil => intro acc _ _ _; simp
  | cons p rest ih =>
    intro acc hwf hfresh hnodup
    obtain ⟨hk, htk, htv⟩ := hwf p (List.mem_cons_self p rest)
    rw [List.map_cons, List.foldl_cons]
    have hp : (p.1, p.2) = p := rfl
    rw [show hline p = hline (p.1, p.2) from rfl]
    rw [headerMerge_step acc p.1 p.2 hk htk htv]
    rw [headerInsert_fresh acc p.1 p.2 (fun q hq => hfresh p (List.mem_cons_self p rest) q hq)]
    rw [ih (acc ++ [(p.1, p.2)])
      (fun q hq => hwf q (List.mem_cons_of_mem p hq))
      ?_ (by
        rw [List.map_cons] at hnodup
        exact hnodup.of_cons)]
    · simp
    · intro q hq r hr
      rcases List.mem_append.mp hr with h1 | h2
      · exact hfresh q (List.mem_cons_of_mem p hq) r h1
      · have hre : r = (p.1, p.2) := by simpa using h2
        subst hre
        rw [List.map_cons] at hnodup
        have := (List.nodup_cons.mp hnodup).1
        intro heq
        exact this (heq ▸ List.mem_map_of_mem Prod.fst hq)

end Poterm

namespace Poterm

/-! ## Parsing the serializer's keyword lines -/

theorem beforeLastQuote_concat (E : Str) : beforeLastQuote (E ++ [qc]) = some E := by
  unfold beforeLastQuote
  have h : (E ++ [qc]).reverse = qc :: E.reverse := by simp
  rw [h, List.dropWhile_cons]
  simp

theorem findCap_msgid (E : Str) :
    findCap ("msgid ".toList ++ qc :: (E ++ [qc])) = some E := by
  show findCap ('m' :: 's' :: 'g' :: 'i' :: 'd' :: ' ' :: qc :: (E ++ [qc])) = some E
  unfold findCap
  have hm : matchAt ('m' :: 's' :: 'g' :: 'i' :: 'd' :: ' ' :: qc :: (E ++ [qc])) = some E := by
    unfold matchAt
    rw [if_pos (by simp [isPre])]
    have hkw : matchKw (('m' :: 's' :: 'g' :: 'i' :: 'd' :: ' ' :: qc :: (E ++ [qc])).drop 3)
        = some 2 := by
      simp [matchKw, isPre]
    rw [hkw]
    simp only [List.drop_succ_cons, List.drop_zero]
    have htw : (((' ' : Char) :: qc :: (E ++ [qc])).takeWhile isWS).length = 1 := by
      rw [List.takeWhile_cons, if_pos (by decide), List.takeWhile_cons, if_neg (by decide)]
      rfl
    rw [htw]
    simp only [List.drop_succ_cons, List.drop_zero, List.drop_one]
    rw [if_neg (by decide)]
    show (match qc :: (E ++ [qc]) with
      | c :: rest => if c = qc then beforeLastQuote rest else none
      | [] => none) = some E
    rw [show (match qc :: (E ++ [qc]) with
      | c :: rest => if c = qc then beforeLastQuote rest else none
      | [] => none) = if qc = qc then beforeLastQuote (E ++ [qc]) else none from rfl]
    rw [if_pos rfl, beforeLastQuote_concat]
  rw [hm]

theorem findCap_msgstr (E : Str) :
    findCap ("msgstr ".toList ++ qc :: (E ++ [qc])) = some E := by
  show findCap ('m' :: 's' :: 'g' :: 's' :: 't' :: 'r' :: ' ' :: qc :: (E ++ [qc])) = some E
  unfold findCap
  have hm : matchAt ('m' :: 's' :: 'g' :: 's' :: 't' :: 'r' :: ' ' :: qc :: (E ++ [qc]))
      = some E := by
    unfold matchAt
    rw [if_pos (by simp [isPre])]
    have hkw : matchKw (('m' :: 's' :: 'g' :: 's' :: 't' :: 'r' :: ' ' :: qc :: (E ++ [qc])).drop 3)
        = some 3 := by
      simp [matchKw, isPre]
    rw [hkw]
    simp only [List.drop_succ_cons, List.drop_zero]
    have htw : (((' ' : Char) :: qc :: (E ++ [qc])).takeWhile isWS).length = 1 := by
      rw [List.takeWhile_cons, if_pos (by decide), List.takeWhile_cons, if_neg (by decide)]
      rfl
    rw [htw]
    simp only [List.drop_succ_cons, List.drop_zero, List.drop_one]
    rw [if_neg (by decide)]
    show (match qc :: (E ++ [qc]) with
      | c :: rest => if c = qc then beforeLastQuote rest else none
      | [] => none) = some E
    rw [show (match qc :: (E ++ [qc]) with
      | c :: rest => if c = qc then beforeLastQuote rest else none
      | [] => none) = if qc = qc then beforeLastQuote (E ++ [qc]) else none from rfl]
    rw [if_pos rfl, beforeLastQuote_concat]
  rw [hm]

theorem findCap_msgctxt (E : Str) :
    findCap ("msgctxt ".toList ++ qc :: (E ++ [qc])) = some E := by
  show findCap ('m' :: 's' :: 'g' :: 'c' :: 't' :: 'x' :: 't' :: ' ' :: qc :: (E ++ [qc])) = some E
  unfold findCap
  have hm : matchAt ('m' :: 's' :: 'g' :: 'c' :: 't' :: 'x' :: 't' :: ' ' :: qc :: (E ++ [qc]))
      = some E := by
    unfold matchAt
    rw [if_pos (by simp [isPre])]
    have hkw : matchKw
        (('m' :: 's' :: 'g' :: 'c' :: 't' :: 'x' :: 't' :: ' ' :: qc :: (E ++ [qc])).drop 3)
        = some 4 := by
      simp [matchKw, isPre]
    rw [hkw]
    simp only [List.drop_succ_cons, List.drop_zero]
    have htw : (((' ' : Char) :: qc :: (E ++ [qc])).takeWhile isWS).length = 1 := by
      rw [List.takeWhile_cons, if_pos (by decide), List.takeWhile_cons, if_neg (by decide)]
      rfl
    rw [htw]
    simp only [List.drop_succ_cons, List.drop_zero, List.drop_one]
    rw [if_neg (by decide)]
    show (match qc :: (E ++ [qc]) with
      | c :: rest => if c = qc then beforeLastQuote rest else none
      | [] => none) = some E
    rw [show (match qc :: (E ++ [qc]) with
      | c :: rest => if c = qc then beforeLastQuote rest else none
      | [] => none) = if qc = qc then beforeLastQuote (E ++ [qc]) else none from rfl]
    rw [if_pos rfl, beforeLastQuote_concat]
  rw [hm]

theorem psv_msgid (E : Str) :
    parse_string_value ("msgid ".toList ++ qc :: (E ++ [qc])) = decodeChars E := by
  unfold parse_string_value
  rw [findCap_msgid]

theorem psv_msgstr (E : Str) :
    parse_string_value ("msgstr ".toList ++ qc :: (E ++ [qc])) = decodeChars E := by
  unfold parse_string_value
  rw [findCap_msgstr]

theorem psv_msgctxt (E : Str) :
    parse_string_value ("msgctxt ".toList ++ qc :: (E ++ [qc])) = decodeChars E := by
  unfold parse_string_value
  rw [findCap_msgctxt]

/-- `parse_string_literal` on a quoted line decodes the middle. -/
theorem psl_wrapped (mid : Str) :
    parse_string_literal (qc :: (mid ++ [qc])) = some (decodeChars mid) := by
  unfold parse_string_literal
  rw [if_pos (by
    rw [Bool.and_eq_true]
    constructor
    · simp [isPre]
    · show (((qc :: mid) ++ [qc]).getLast? == some qc) = true
      rw [List.getLast?_concat]
      rfl)]
  rw [if_neg (by
    intro hcontra
    simp at hcontra)]
  rw [show (qc :: (mid ++ [qc])).drop 1 = mid ++ [qc] from rfl]
  rw [List.dropLast_concat]

end Poterm

namespace Poterm

/-! ## Metadata and continuation loop lemmas on serialized lines -/

/-- Trim of a `# `-style metadata line with trimmed content. -/
theorem trim_meta2 (c0 : Char) (c : Str) (h0 : isWS c0 = false) (hc : trim c = c) :
    trim (c0 :: ' ' :: c) = if c = [] then [c0] else c0 :: ' ' :: c := by
  rw [trim_cons_nonws c0 _ h0]
  by_cases hce : c = []
  · subst hce
    rw [if_pos rfl, trimRight_singleton]
    simp [isWS]
  · rw [if_neg hce]
    have hcr : trimRight c = c := (trim_eq_self_parts c hc).2
    obtain ⟨f0, lc, hdec, hlc⟩ := trimmed_last_nonws c hcr hce
    rw [hdec]
    rw [show (' ' :: (f0 ++ [lc])) = ((' ' :: f0) ++ [lc]) from by simp]
    rw [trimRight_append, trimRight_singleton, hlc]
    simp

/-- Trim of a `#. `-style metadata line with trimmed content. -/
theorem trim_meta3 (c0 c1 : Char) (c : Str) (h0 : isWS c0 = false) (h1 : isWS c1 = false)
    (hc : trim c = c) :
    trim (c0 :: c1 :: ' ' :: c) = if c = [] then [c0, c1] else c0 :: c1 :: ' ' :: c := by
  rw [trim_cons_nonws c0 _ h0, trimRight_cons_nonws c1 _ h1]
  by_cases hce : c = []
  · subst hce
    rw [if_pos rfl, trimRight_singleton]
    simp [isWS]
  · rw [if_neg hce]
    have hcr : trimRight c = c := (trim_eq_self_parts c hc).2
    obtain ⟨f0, lc, hdec, hlc⟩ := trimmed_last_nonws c hcr hce
    rw [hdec]
    rw [show (' ' :: (f0 ++ [lc])) = ((' ' :: f0) ++ [lc]) from by simp]
    rw [trimRight_append, trimRight_singleton, hlc]
    simp

/-- The one-step equation of the metadata loop, with the `let`
zeta-expanded. -/
theorem parseMeta_cons (e : PoEntry) (l : Str) (rest : List Str) :
    parseMeta e (l :: rest) =
      (if (trim l).isEmpty then (e, l :: rest)
       else if isPre "#.".toList (trim l) then
         parseMeta { e with extracted_comments := e.extracted_comments ++ [trim ((trim l).drop 2)] } rest
       else if isPre "#:".toList (trim l) then
         parseMeta { e with references := e.references ++ [trim ((trim l).drop 2)] } rest
       else if isPre "#,".toList (trim l) then
         parseMeta { e with flags := e.flags ++ (splitOnChar ',' ((trim l).drop 2)).map trim } rest
       else if isPre "#".toList (trim l) && !isPre "#~".toList (trim l) then
         parseMeta { e with comments := e.comments ++ [trim ((trim l).drop 1)] } rest
       else (e, l :: rest)) := rfl

/-- One translator-comment line. -/
theorem parseMeta_comment (e : PoEntry) (c : Str) (rest : List Str) (hc : trim c = c) :
    parseMeta e (('#' :: ' ' :: c) :: rest)
      = parseMeta { e with comments := e.comments ++ [c] } rest := by
  rw [parseMeta_cons, trim_meta2 '#' c (by decide) hc]
  by_cases hce : c = []
  · rw [if_pos hce]
    subst hce
    rw [if_neg (by decide), if_neg (by decide), if_neg (by decide), if_neg (by decide),
      if_pos (by decide)]
    rw [show trim ((['#'] : Str).drop 1) = ([] : Str) from by decide]
  · rw [if_neg hce]
    rw [if_neg (by simp), if_neg (by simp [isPre]), if_neg (by simp [isPre]),
      if_neg (by simp [isPre]), if_pos (by simp [isPre])]
    rw [show trim (('#' :: ' ' :: c).drop 1) = c from by
      simp only [List.drop_succ_cons, List.drop_zero]
      rw [trim_cons_ws ' ' c (by decide), hc]]

/-- One extracted-comment line. -/
theorem parseMeta_extracted (e : PoEntry) (c : Str) (rest : List Str) (hc : trim c = c) :
    parseMeta e (('#' :: '.' :: ' ' :: c) :: rest)
      = parseMeta { e with extracted_comments := e.extracted_comments ++ [c] } rest := by
  rw [parseMeta_cons, trim_meta3 '#' '.' c (by decide) (by decide) hc]
  by_cases hce : c = []
  · rw [if_pos hce]
    subst hce
    rw [if_neg (by decide), if_pos (by decide)]
    rw [show trim ((['#', '.'] : Str).drop 2) = ([] : Str) from by decide]
  · rw [if_neg hce]
    rw [if_neg (by simp), if_pos (by simp [isPre])]
    rw [show trim (('#' :: '.' :: ' ' :: c).drop 2) = c from by
      simp only [List.drop_succ_cons, List.drop_zero]
      rw [trim_cons_ws ' ' c (by decide), hc]]

/-- One reference line. -/
theorem parseMeta_reference (e : PoEntry) (c : Str) (rest : List Str) (hc : trim c = c) :
    parseMeta e (('#' :: ':' :: ' ' :: c) :: rest)
      = parseMeta { e with references := e.references ++ [c] } rest := by
  rw [parseMeta_cons, trim_meta3 '#' ':' c (by decide) (by decide) hc]
  by_cases hce : c = []
  · rw [if_pos hce]
    subst hce
    rw [if_neg (by decide), if_neg (by decide), if_pos (by decide)]
    rw [show trim ((['#', ':'] : Str).drop 2) = ([] : Str) from by decide]
  · rw [if_neg hce]
    rw [if_neg (by simp), if_neg (by simp [isPre]), if_pos (by simp [isPre])]
    rw [show trim (('#' :: ':' :: ' ' :: c).drop 2) = c from by
      simp only [List.drop_succ_cons, List.drop_zero]
      rw [trim_cons_ws ' ' c (by decide), hc]]

/-- The flags line. -/
theorem parseMeta_flags (e : PoEntry) (fs : List Str) (rest : List Str)
    (hne : fs ≠ []) (hwf : ∀ f ∈ fs, trim f = f ∧ ',' ∉ f) :
    parseMeta e (('#' :: ',' :: ' ' :: joinSep [',', ' '] fs) :: rest)
      = parseMeta { e with flags := e.flags ++ fs } rest := by
  rw [parseMeta_cons]
  have htr : trim ('#' :: ',' :: ' ' :: joinSep [',', ' '] fs)
      = '#' :: ',' :: trimRight (' ' :: joinSep [',', ' '] fs) := by
    rw [trim_cons_nonws '#' _ (by decide), trimRight_cons_nonws ',' _ (by decide)]
  rw [htr]
  rw [if_neg (by simp), if_neg (by simp [isPre]), if_neg (by simp [isPre]),
    if_pos (by simp [isPre])]
  rw [show ('#' :: ',' :: trimRight (' ' :: joinSep [',', ' '] fs)).drop 2
      = trimRight (' ' :: joinSep [',', ' '] fs) from rfl]
  rw [joinSep_split_trim fs hne hwf]

/-- The metadata loop stops at a line whose trim begins with `m`. -/
theorem parseMeta_stop (e : PoEntry) (l : Str) (rest : List Str)
    (h : ∃ u, trim l = 'm' :: u) :
    parseMeta e (l :: rest) = (e, l :: rest) := by
  obtain ⟨u, hu⟩ := h
  rw [parseMeta_cons, hu]
  rw [if_neg (by simp), if_neg (by simp [isPre]), if_neg (by simp [isPre]),
    if_neg (by simp [isPre]), if_neg (by simp [isPre])]

theorem parseMeta_comments (cs : List Str) (e : PoEntry) (rest : List Str)
    (hc : ∀ c ∈ cs, trim c = c) :
    parseMeta e (cs.map (fun c => '#' :: ' ' :: c) ++ rest)
      = parseMeta { e with comments := e.comments ++ cs } rest := by
  induction cs generalizing e with
  | nil => simp
  | cons c ct ih =>
    rw [List.map_cons, List.cons_append,
      parseMeta_comment e c _ (hc c (List.mem_cons_self c ct)),
      ih _ (fun x hx => hc x (List.mem_cons_of_mem c hx))]
    simp

theorem parseMeta_extracteds (cs : List Str) (e : PoEntry) (rest : List Str)
    (hc : ∀ c ∈ cs, trim c = c) :
    parseMeta e (cs.map (fun c => '#' :: '.' :: ' ' :: c) ++ rest)
      = parseMeta { e with extracted_comments := e.extracted_comments ++ cs } rest := by
  induction cs generalizing e with
  | nil => simp
  | cons c ct ih =>
    rw [List.map_cons, List.cons_append,
      parseMeta_extracted e c _ (hc c (List.mem_cons_self c ct)),
      ih _ (fun x hx => hc x (List.mem_cons_of_mem c hx))]
    simp

theorem parseMeta_referencess (cs : List Str) (e : PoEntry) (rest : List Str)
    (hc : ∀ c ∈ cs, trim c = c) :
    parseMeta e (cs.map (fun c => '#' :: ':' :: ' ' :: c) ++ rest)
      = parseMeta { e with references := e.references ++ cs } rest := by
  induction cs generalizing e with
  | nil => simp
  | cons c ct ih =>
    rw [List.map_cons, List.cons_append,
      parseMeta_reference e c _ (hc c (List.mem_cons_self c ct)),
      ih _ (fun x hx => hc x (List.mem_cons_of_mem c hx))]
    simp

theorem parseContin_cons (acc l : Str) (rest : List Str) :
    parseContin acc (l :: rest) =
      (if isPre [qc] (trim l) then
        match parse_string_literal (trim l) with
        | none => none
        | some v => parseContin (acc ++ v) rest
      else some (acc, l :: rest)) := rfl

/-- Continuation loop: stop at a line whose trim begins with `m`. -/
theorem parseContin_stop_m (acc : Str) (l : Str) (rest : List Str)
    (h : ∃ u, trim l = 'm' :: u) :
    parseContin acc (l :: rest) = some (acc, l :: rest) := by
  obtain ⟨u, hu⟩ := h
  rw [parseContin_cons, hu]
  rw [if_neg (by simp [isPre]; decide)]

/-- Continuation loop: stop at a blank line. -/
theorem parseContin_stop_blank (acc : Str) (rest : List Str) :
    parseContin acc ([] :: rest) = some (acc, [] :: rest) := rfl

/-- Continuation loop: consume one quoted line. -/
theorem parseContin_quoted (acc mid : Str) (rest : List Str) :
    parseContin acc ((qc :: (mid ++ [qc])) :: rest)
      = parseContin (acc ++ decodeChars mid) rest := by
  rw [parseContin_cons]
  rw [trim_wrap qc qc mid (by decide) (by decide)]
  rw [if_pos (by simp [isPre])]
  rw [psl_wrapped mid]

end Poterm

namespace Poterm

/-! ## Parsing a serialized entry block -/

theorem parseKw_cons (kw l : Str) (rest : List Str) :
    parseKw kw (l :: rest) =
      (if isPre kw (trim l) then
        match parseContin (parse_string_value (trim l)) rest with
        | none => none
        | some (v, ls') => some (some v, ls')
      else some (none, l :: rest)) := rfl

/-- A serialized keyword line beginning with `m` is already trimmed. -/
theorem trim_kwline (pre E : Str) :
    trim (('m' :: pre) ++ qc :: (E ++ [qc])) = ('m' :: pre) ++ qc :: (E ++ [qc]) := by
  rw [show ('m' :: pre) ++ qc :: (E ++ [qc]) = 'm' :: ((pre ++ qc :: E) ++ [qc]) from by simp]
  exact trim_wrap 'm' qc _ (by decide) (by decide)

/-- The metadata prefix of a serialized entry accumulates exactly the
entry's metadata fields and stops at the first keyword line. -/
theorem parseMeta_entryLines (e : PoEntry) (rest : List Str)
    (hcom : ∀ c ∈ e.comments, trim c = c)
    (hext : ∀ c ∈ e.extracted_comments, trim c = c)
    (href : ∀ c ∈ e.references, trim c = c)
    (hfl : ∀ f ∈ e.flags, trim f = f ∧ ',' ∉ f) :
    parseMeta PoEntry.new (entryLines e ++ rest)
      = ({ PoEntry.new with
           comments := e.comments
           extracted_comments := e.extracted_comments
           references := e.references
           flags := e.flags },
         (match e.msgctxt with
          | none => []
          | some c => ["msgctxt ".toList ++ qc :: (escape_string c ++ [qc])]) ++
         ("msgid ".toList ++ qc :: (escape_string e.msgid ++ [qc])) ::
         ("msgstr ".toList ++ qc :: (escape_string e.msgstr ++ [qc])) ::
         [] :: rest) := by
  unfold entryLines
  simp only [List.append_assoc, List.cons_append, List.nil_append]
  rw [parseMeta_comments e.comments PoEntry.new _ hcom]
  rw [parseMeta_extracteds e.extracted_comments _ _ hext]
  rw [parseMeta_referencess e.references _ _ href]
  have hstop : ∀ (e' : PoEntry),
      parseMeta e'
        ((match e.msgctxt with
          | none => []
          | some c => ["msgctxt ".toList ++ qc :: (escape_string c ++ [qc])]) ++
         ("msgid ".toList ++ qc :: (escape_string e.msgid ++ [qc])) ::
         ("msgstr ".toList ++ qc :: (escape_string e.msgstr ++ [qc])) ::
         [] :: rest)
      = (e', (match e.msgctxt with
          | none => []
          | some c => ["msgctxt ".toList ++ qc :: (escape_string c ++ [qc])]) ++
         ("msgid ".toList ++ qc :: (escape_string e.msgid ++ [qc])) ::
         ("msgstr ".toList ++ qc :: (escape_string e.msgstr ++ [qc])) ::
         [] :: rest) := by
    intro e'
    cases hctx : e.msgctxt with
    | none =>
      simp only [List.nil_append]
      exact parseMeta_stop e' _ _ ⟨_, trim_kwline _ _⟩
    | some c =>
      simp only [List.cons_append, List.nil_append]
      exact parseMeta_stop e' _ _ ⟨_, trim_kwline _ _⟩
  cases hfe : e.flags with
  | nil =>
    simp only [List.isEmpty_nil, if_true, List.nil_append]
    rw [hstop]
    simp [PoEntry.new]
  | cons f0 ft =>
    simp only [List.isEmpty_cons, Bool.false_eq_true, if_false, List.cons_append,
      List.nil_append]
    rw [parseMeta_flags _ (f0 :: ft) _ (by simp) (by rw [← hfe]; exact hfl)]
    rw [hstop]
    simp [PoEntry.new]

end Poterm

namespace Poterm

theorem trim_msgid_line (E : Str) :
    trim ("msgid ".toList ++ qc :: (E ++ [qc])) = "msgid ".toList ++ qc :: (E ++ [qc]) :=
  trim_kwline "sgid ".toList E

theorem trim_msgstr_line (E : Str) :
    trim ("msgstr ".toList ++ qc :: (E ++ [qc])) = "msgstr ".toList ++ qc :: (E ++ [qc]) :=
  trim_kwline "sgstr ".toList E

theorem trim_msgctxt_line (E : Str) :
    trim ("msgctxt ".toList ++ qc :: (E ++ [qc])) = "msgctxt ".toList ++ qc :: (E ++ [qc]) :=
  trim_kwline "sgctxt ".toList E

theorem isPre_msgctxt_on_msgid (E : Str) :
    isPre "msgctxt".toList ("msgid ".toList ++ qc :: (E ++ [qc])) = false := by
  show isPre "msgctxt".toList ('m' :: 's' :: 'g' :: 'i' :: 'd' :: ' ' :: qc :: (E ++ [qc])) = false
  simp [isPre]

theorem isPre_msgid_self (E : Str) :
    isPre "msgid".toList ("msgid ".toList ++ qc :: (E ++ [qc])) = true := by
  show isPre "msgid".toList ('m' :: 's' :: 'g' :: 'i' :: 'd' :: ' ' :: qc :: (E ++ [qc])) = true
  simp [isPre]

theorem isPre_msgstr_self (E : Str) :
    isPre "msgstr".toList ("msgstr ".toList ++ qc :: (E ++ [qc])) = true := by
  show isPre "msgstr".toList ('m' :: 's' :: 'g' :: 's' :: 't' :: 'r' :: ' ' :: qc :: (E ++ [qc]))
      = true
  simp [isPre]

theorem isPre_msgctxt_self (E : Str) :
    isPre "msgctxt".toList ("msgctxt ".toList ++ qc :: (E ++ [qc])) = true := by
  show isPre "msgctxt".toList
      ('m' :: 's' :: 'g' :: 'c' :: 't' :: 'x' :: 't' :: ' ' :: qc :: (E ++ [qc])) = true
  simp [isPre]

/-- The keyword sections of `parseBlock`, with the metadata result
substituted. -/
theorem parseBlock_eq2 (e1 : PoEntry) (ls1 ls : List Str)
    (hm : parseMeta PoEntry.new ls = (e1, ls1)) :
    parseBlock ls =
      (match parseKw "msgctxt".toList ls1 with
       | none => none
       | some (octx, ls2) =>
         let e2 := match octx with
           | some c => { e1 with msgctxt := some c }
           | none => e1
         match parseKw "msgid".toList ls2 with
         | none => none
         | some (omid, ls3) =>
           let e3 := match omid with
             | some v => { e2 with msgid := v }
             | none => e2
           match parseKw "msgstr".toList ls3 with
           | none => none
           | some (omstr, ls4) =>
             let e4 := match omstr with
               | some v => { e3 with msgstr := v }
               | none => e3
             some (e4, ls4)) := by
  unfold parseBlock
  rw [hm]

/-- A complete serialized entry block parses back to the entry
(before `update_status`), consuming everything up to the blank
separator. -/
theorem parseBlock_entry (e : PoEntry) (rest : List Str)
    (hcom : ∀ c ∈ e.comments, trim c = c)
    (hext : ∀ c ∈ e.extracted_comments, trim c = c)
    (href : ∀ c ∈ e.references, trim c = c)
    (hfl : ∀ f ∈ e.flags, trim f = f ∧ ',' ∉ f) :
    parseBlock (entryLines e ++ rest)
      = some ({ e with is_fuzzy := false, is_translated := false }, [] :: rest) := by
  have hmid : parseKw "msgid".toList
      (("msgid ".toList ++ qc :: (escape_string e.msgid ++ [qc])) ::
       ("msgstr ".toList ++ qc :: (escape_string e.msgstr ++ [qc])) :: [] :: rest)
      = some (some e.msgid,
          ("msgstr ".toList ++ qc :: (escape_string e.msgstr ++ [qc])) :: [] :: rest) := by
    rw [parseKw_cons, trim_msgid_line, if_pos (isPre_msgid_self _)]
    rw [psv_msgid, decodeChars_escape_nil]
    rw [parseContin_stop_m _ _ _ ⟨_, trim_msgstr_line _⟩]
  have hstr : parseKw "msgstr".toList
      (("msgstr ".toList ++ qc :: (escape_string e.msgstr ++ [qc])) :: [] :: rest)
      = some (some e.msgstr, [] :: rest) := by
    rw [parseKw_cons, trim_msgstr_line, if_pos (isPre_msgstr_self _)]
    rw [psv_msgstr, decodeChars_escape_nil]
    rw [parseContin_stop_blank]
  rw [parseBlock_eq2 _ _ _ (parseMeta_entryLines e rest hcom hext href hfl)]
  cases hctx : e.msgctxt with
  | none =>
    simp only [List.nil_append]
    have hkw1 : parseKw "msgctxt".toList
        (("msgid ".toList ++ qc :: (escape_string e.msgid ++ [qc])) ::
         ("msgstr ".toList ++ qc :: (escape_string e.msgstr ++ [qc])) :: [] :: rest)
        = some (none,
            ("msgid ".toList ++ qc :: (escape_string e.msgid ++ [qc])) ::
            ("msgstr ".toList ++ qc :: (escape_string e.msgstr ++ [qc])) :: [] :: rest) := by
      rw [parseKw_cons, trim_msgid_line, if_neg (by rw [isPre_msgctxt_on_msgid]; simp)]
    simp only [hkw1, hmid, hstr]
    simp [hctx, PoEntry.new]
  | some c =>
    simp only [List.cons_append, List.nil_append]
    have hkw1 : parseKw "msgctxt".toList
        (("msgctxt ".toList ++ qc :: (escape_string c ++ [qc])) ::
         ("msgid ".toList ++ qc :: (escape_string e.msgid ++ [qc])) ::
         ("msgstr ".toList ++ qc :: (escape_string e.msgstr ++ [qc])) :: [] :: rest)
        = some (some c,
            ("msgid ".toList ++ qc :: (escape_string e.msgid ++ [qc])) ::
            ("msgstr ".toList ++ qc :: (escape_string e.msgstr ++ [qc])) :: [] :: rest) := by
      rw [parseKw_cons, trim_msgctxt_line, if_pos (isPre_msgctxt_self _)]
      rw [psv_msgctxt, decodeChars_escape_nil]
      rw [parseContin_stop_m _ _ _ ⟨_, trim_msgid_line _⟩]
    simp only [hkw1, hmid, hstr]
    simp [hctx, PoEntry.new]

end Poterm

namespace Poterm

/-! ## Well-formedness predicates for parser-produced data -/

/-- Shape invariant of a parsed entry: metadata fields are trimmed and
newline-free, flags additionally comma-free, the derived status fields
agree with their defining expressions, and the `msgid` is non-empty
(empty-`msgid` blocks are never appended). -/
def WFe (e : PoEntry) : Prop :=
  (∀ c ∈ e.comments, trim c = c ∧ '\n' ∉ c) ∧
  (∀ c ∈ e.extracted_comments, trim c = c ∧ '\n' ∉ c) ∧
  (∀ r ∈ e.references, trim r = r ∧ '\n' ∉ r) ∧
  (∀ f ∈ e.flags, trim f = f ∧ ',' ∉ f ∧ '\n' ∉ f) ∧
  e.is_fuzzy = e.flags.contains fuzzyS ∧
  e.is_translated = (!e.msgstr.isEmpty && !e.flags.contains fuzzyS) ∧
  e.msgid ≠ []

/-- Shape invariant of a parsed header key. -/
def KeyOK (k : Str) : Prop := trim k = k ∧ ':' ∉ k ∧ '\n' ∉ k

/-- Shape invariant of a parsed header value. -/
def ValOK (v : Str) : Prop := trim v = v ∧ '\n' ∉ v

/-- Shape invariant of a parsed header. -/
def WFh (h : List (Str × Str)) : Prop :=
  (∀ p ∈ h, KeyOK p.1 ∧ ValOK p.2) ∧ (h.map Prod.fst).Nodup

/-- Shape invariant of a parser-produced catalog. -/
def WFf (f : PoFile) : Prop :=
  WFh f.header ∧ (∀ e ∈ f.entries, WFe e) ∧ f.path = none ∧ f.modified = false

/-! ## Parsing the serialized header block -/

/-- The serialized header text: the decoded `msgstr` of the header
entry. -/
def hdrText (hdr : List (Str × Str)) : Str :=
  (hdr.map (fun p => hline p ++ ['\n'])).flatten

/-- The header continuation lines accumulate the decoded
`key: value\n` text. -/
theorem parseContin_headerLines (hdr : List (Str × Str))
    (hbs : ∀ p ∈ hdr, ∀ ch ∈ p.1, ch ≠ bs) :
    ∀ (acc : Str) (rest : List Str),
    parseContin acc (hdr.map headerLine ++ ([] :: rest))
      = some (acc ++ hdrText hdr, [] :: rest) := by
  induction hdr with
  | nil =>
    intro acc rest
    simp only [List.map_nil, List.nil_append, hdrText, List.flatten_nil, List.append_nil]
    exact parseContin_stop_blank acc rest
  | cons p t ih =>
    intro acc rest
    have hshape : headerLine p
        = qc :: ((p.1 ++ ':' :: ' ' :: (escape_string p.2 ++ [bs, 'n'])) ++ [qc]) := by
      unfold headerLine
      simp
    rw [List.map_cons, List.cons_append, hshape, parseContin_quoted]
    have hdec : decodeChars (p.1 ++ ':' :: ' ' :: (escape_string p.2 ++ [bs, 'n']))
        = hline p ++ ['\n'] := by
      rw [show p.1 ++ ':' :: ' ' :: (escape_string p.2 ++ [bs, 'n'])
          = (p.1 ++ [':', ' ']) ++ (escape_string p.2 ++ [bs, 'n']) from by simp]
      rw [decodeChars_clean _ _ (by
        intro ch hch
        rcases List.mem_append.mp hch with h1 | h2
        · exact hbs p (List.mem_cons_self p t) ch h1
        · simp only [List.mem_cons, List.mem_singleton, List.not_mem_nil, or_false] at h2
          rcases h2 with rfl | rfl <;> decide)]
      rw [decodeChars_escape]
      unfold hline
      rw [show decodeChars [bs, 'n'] = ['\n'] from by decide]
      simp
    rw [hdec, ih (fun q hq => hbs q (List.mem_cons_of_mem p hq)) _ rest]
    unfold hdrText
    simp

/-- A serialized header block parses to the synthetic header entry. -/
theorem parseBlock_header (hdr : List (Str × Str)) (rest : List Str)
    (hbs : ∀ p ∈ hdr, ∀ ch ∈ p.1, ch ≠ bs) :
    parseBlock (("msgid ".toList ++ [qc, qc]) :: ("msgstr ".toList ++ [qc, qc]) ::
        (hdr.map headerLine ++ ([] :: rest)))
      = some ({ PoEntry.new with msgstr := hdrText hdr }, [] :: rest) := by
  rw [show ("msgid ".toList ++ [qc, qc]) = ("msgid ".toList ++ qc :: ([] ++ [qc])) from rfl]
  rw [show ("msgstr ".toList ++ [qc, qc]) = ("msgstr ".toList ++ qc :: ([] ++ [qc])) from rfl]
  have h0 : parseMeta PoEntry.new
      (("msgid ".toList ++ qc :: ([] ++ [qc])) :: ("msgstr ".toList ++ qc :: ([] ++ [qc])) ::
        (hdr.map headerLine ++ ([] :: rest)))
      = (PoEntry.new,
         ("msgid ".toList ++ qc :: ([] ++ [qc])) :: ("msgstr ".toList ++ qc :: ([] ++ [qc])) ::
          (hdr.map headerLine ++ ([] :: rest))) :=
    parseMeta_stop _ _ _ ⟨_, trim_msgid_line []⟩
  rw [parseBlock_eq2 _ _ _ h0]
  have hkw1 : parseKw "msgctxt".toList
      (("msgid ".toList ++ qc :: ([] ++ [qc])) :: ("msgstr ".toList ++ qc :: ([] ++ [qc])) ::
        (hdr.map headerLine ++ ([] :: rest)))
      = some (none,
          ("msgid ".toList ++ qc :: ([] ++ [qc])) :: ("msgstr ".toList ++ qc :: ([] ++ [qc])) ::
            (hdr.map headerLine ++ ([] :: rest))) := by
    rw [parseKw_cons, trim_msgid_line [], if_neg (by rw [isPre_msgctxt_on_msgid]; simp)]
  have hmid : parseKw "msgid".toList
      (("msgid ".toList ++ qc :: ([] ++ [qc])) :: ("msgstr ".toList ++ qc :: ([] ++ [qc])) ::
        (hdr.map headerLine ++ ([] :: rest)))
      = some (some [],
          ("msgstr ".toList ++ qc :: ([] ++ [qc])) :: (hdr.map headerLine ++ ([] :: rest))) := by
    rw [parseKw_cons, trim_msgid_line [], if_pos (isPre_msgid_self [])]
    rw [psv_msgid, show decodeChars [] = [] from rfl]
    rw [parseContin_stop_m _ _ _ ⟨_, trim_msgstr_line []⟩]
  have hstr : parseKw "msgstr".toList
      (("msgstr ".toList ++ qc :: ([] ++ [qc])) :: (hdr.map headerLine ++ ([] :: rest)))
      = some (some (hdrText hdr), [] :: rest) := by
    rw [parseKw_cons, trim_msgstr_line [], if_pos (isPre_msgstr_self [])]
    rw [psv_msgstr, show decodeChars [] = [] from rfl]
    rw [parseContin_headerLines hdr hbs [] rest]
    rw [List.nil_append]
  simp only [hkw1, hmid, hstr]
  simp [PoEntry.new]

end Poterm

namespace Poterm

/-! ## Stepping the parse loop over serialized blocks -/

theorem parseLoopF_cons (f : Nat) (acc : PoFile) (atSt : Bool) (l : Str) (rest : List Str) :
    parseLoopF (f + 1) acc atSt (l :: rest) =
      (if (trim l).isEmpty then parseLoopF f acc false rest
       else
         match parseBlock (l :: rest) with
         | none => none
         | some (e0, ls') =>
           parseLoopF f
             (if (e0.update_status).msgid.isEmpty && atSt then
                { acc with header := headerMerge acc.header (e0.update_status).msgstr }
              else if !(e0.update_status).msgid.isEmpty then
                { acc with entries := acc.entries ++ [e0.update_status] }
              else acc)
             false ls') := rfl

/-- Re-deriving the status fields restores an entry whose status fields
already satisfy their defining equations. -/
theorem update_status_roundtrip (e : PoEntry)
    (hf : e.is_fuzzy = e.flags.contains fuzzyS)
    (ht : e.is_translated = (!e.msgstr.isEmpty && !e.flags.contains fuzzyS)) :
    PoEntry.update_status { e with is_fuzzy := false, is_translated := false } = e := by
  cases e
  unfold PoEntry.update_status
  simp_all

/-- A serialized entry block is never empty. -/
theorem entryLines_ne_nil (e : PoEntry) : entryLines e ≠ [] := by
  unfold entryLines
  simp

/-- The first serialized line of an entry trims to a non-empty line. -/
theorem entryLines_trim_head (e : PoEntry) :
    ∀ l t, entryLines e = l :: t → (trim l).isEmpty = false := by
  intro l t h
  unfold entryLines at h
  cases hcom : e.comments with
  | cons c0 ct =>
    rw [hcom] at h
    simp only [List.map_cons, List.cons_append] at h
    injection h with h1 h2
    rw [← h1, trim_cons_nonws _ _ (by decide)]
    simp
  | nil =>
  rw [hcom] at h
  simp only [List.map_nil, List.nil_append] at h
  cases hext : e.extracted_comments with
  | cons c0 ct =>
    rw [hext] at h
    simp only [List.map_cons, List.cons_append] at h
    injection h with h1 h2
    rw [← h1, trim_cons_nonws _ _ (by decide)]
    simp
  | nil =>
  rw [hext] at h
  simp only [List.map_nil, List.nil_append] at h
  cases href : e.references with
  | cons r0 rt =>
    rw [href] at h
    simp only [List.map_cons, List.cons_append] at h
    injection h with h1 h2
    rw [← h1, trim_cons_nonws _ _ (by decide)]
    simp
  | nil =>
  rw [href] at h
  simp only [List.map_nil, List.nil_append] at h
  cases hfl : e.flags with
  | cons f0 ft =>
    rw [hfl] at h
    simp only [List.isEmpty_cons, Bool.false_eq_true, if_false, List.cons_append] at h
    injection h with h1 h2
    rw [← h1, trim_cons_nonws _ _ (by decide)]
    simp
  | nil =>
  rw [hfl] at h
  simp only [List.isEmpty_nil, if_true, List.nil_append] at h
  cases hctx : e.msgctxt with
  | some c =>
    rw [hctx] at h
    simp only [List.cons_append] at h
    injection h with h1 h2
    rw [← h1]
    rw [show ("msgctxt ".toList ++ qc :: (escape_string c ++ [qc]))
        = 'm' :: ("sgctxt ".toList ++ qc :: (escape_string c ++ [qc])) from rfl]
    rw [trim_cons_nonws _ _ (by decide)]
    simp
  | none =>
    rw [hctx] at h
    injection h with h1 h2
    rw [← h1]
    rw [show ("msgid ".toList ++ qc :: (escape_string e.msgid ++ [qc]))
        = 'm' :: ("sgid ".toList ++ qc :: (escape_string e.msgid ++ [qc])) from rfl]
    rw [trim_cons_nonws _ _ (by decide)]
    simp

/-- Consuming one serialized entry block takes exactly two fuel steps
(the block itself and the trailing blank line) and appends the entry. -/
theorem parseLoopF_entry_step (g : Nat) (acc : PoFile) (b : Bool) (e : PoEntry)
    (rest : List Str) (hwf : WFe e) :
    parseLoopF (g + 2) acc b (entryLines e ++ rest)
      = parseLoopF g { acc with entries := acc.entries ++ [e] } false rest := by
  obtain ⟨hcom, hext, href, hfl, hf, ht, hid⟩ := hwf
  cases hel : entryLines e with
  | nil => exact absurd hel (entryLines_ne_nil e)
  | cons l t =>
  simp only [List.cons_append]
  rw [show (g + 2) = (g + 1) + 1 from rfl, parseLoopF_cons]
  rw [if_neg (by rw [entryLines_trim_head e l t hel]; simp)]
  have hblock : parseBlock (l :: (t ++ rest))
      = some ({ e with is_fuzzy := false, is_translated := false }, [] :: rest) := by
    rw [show l :: (t ++ rest) = entryLines e ++ rest from by rw [hel]; rfl]
    exact parseBlock_entry e rest (fun x hx => (hcom x hx).1) (fun x hx => (hext x hx).1)
      (fun x hx => (href x hx).1) (fun x hx => ⟨(hfl x hx).1, (hfl x hx).2.1⟩)
  have hrt : PoEntry.update_status { e with is_fuzzy := false, is_translated := false } = e :=
    update_status_roundtrip e hf ht
  simp only [hblock, hrt]
  rw [if_neg (by
      cases hm : e.msgid with
      | nil => exact absurd hm hid
      | cons a l2 => simp),
    if_pos (by
      cases hm : e.msgid with
      | nil => exact absurd hm hid
      | cons a l2 => simp)]
  rw [show (g + 1) = g + 0 + 1 from rfl, parseLoopF_cons]
  rw [if_pos (by decide)]

/-- Consuming the serialized header block takes exactly two fuel steps
and merges the header text. -/
theorem parseLoopF_header_step (g : Nat) (acc : PoFile) (hdr : List (Str × Str))
    (rest : List Str) (hbs : ∀ p ∈ hdr, ∀ ch ∈ p.1, ch ≠ bs) :
    parseLoopF (g + 2) acc true
        ((("msgid ".toList ++ [qc, qc]) :: ("msgstr ".toList ++ [qc, qc]) ::
          (hdr.map headerLine ++ ([] :: rest))))
      = parseLoopF g { acc with header := headerMerge acc.header (hdrText hdr) } false rest := by
  rw [show (g + 2) = (g + 1) + 1 from rfl, parseLoopF_cons]
  rw [if_neg (by
    rw [show ("msgid ".toList ++ [qc, qc]) = ("msgid ".toList ++ qc :: ([] ++ [qc])) from rfl]
    rw [trim_msgid_line []]
    simp)]
  have hmsgid : (PoEntry.update_status { PoEntry.new with msgstr := hdrText hdr }).msgid
      = [] := by
    simp [PoEntry.update_status, PoEntry.new]
  have hmsgstr : (PoEntry.update_status { PoEntry.new with msgstr := hdrText hdr }).msgstr
      = hdrText hdr := by
    simp [PoEntry.update_status, PoEntry.new]
  simp only [parseBlock_header hdr rest hbs]
  rw [if_pos (by simp [hmsgid])]
  rw [hmsgstr]
  rw [show (g + 1) = g + 0 + 1 from rfl, parseLoopF_cons]
  rw [if_pos (by decide)]

/-- Consuming a list of serialized entry blocks: two fuel steps per
entry, then the loop returns the accumulator with the entries
appended. -/
theorem parseLoopF_entries (es : List PoEntry) (hwf : ∀ e ∈ es, WFe e) :
    ∀ (g : Nat) (acc : PoFile) (b : Bool),
      parseLoopF (2 * es.length + (g + 1)) acc b ((es.map entryLines).flatten)
        = parseLoopF (g + 1) { acc with entries := acc.entries ++ es } false [] := by
  induction es with
  | nil =>
    intro g acc b
    simp
    rfl
  | cons e tl ih =>
    intro g acc b
    have hfuel : 2 * (e :: tl).length + (g + 1) = (2 * tl.length + (g + 1)) + 2 := by
      simp [List.length_cons]
      ring
    rw [hfuel]
    rw [show ((e :: tl).map entryLines).flatten
        = entryLines e ++ (tl.map entryLines).flatten from by simp]
    rw [parseLoopF_entry_step _ _ _ _ _ (hwf e (List.mem_cons_self e tl))]
    rw [ih (fun x hx => hwf x (List.mem_cons_of_mem e hx)) g _ false]
    simp

end Poterm

namespace Poterm

/-! ## The serialized lines are newline-free and do not end in CR -/

/-- Escaping produces no newline characters. -/
theorem escape_no_newline (s : Str) : '\n' ∉ escape_string s := by
  induction s with
  | nil => simp [escape_string, replaceChar]
  | cons c t ih =>
    rw [escape_string_cons]
    intro hmem
    rcases List.mem_append.mp hmem with h | h
    · simp only [escChar] at h
      by_cases h1 : c = bs
      · rw [if_pos h1] at h
        exact absurd h (by decide)
      rw [if_neg h1] at h
      by_cases h2 : c = '\n'
      · rw [if_pos h2] at h
        exact absurd h (by decide)
      rw [if_neg h2] at h
      by_cases h3 : c = '\t'
      · rw [if_pos h3] at h
        exact absurd h (by decide)
      rw [if_neg h3] at h
      by_cases h4 : c = '\r'
      · rw [if_pos h4] at h
        exact absurd h (by decide)
      rw [if_neg h4] at h
      by_cases h5 : c = qc
      · rw [if_pos h5] at h
        exact absurd h (by decide)
      rw [if_neg h5] at h
      simp only [List.mem_singleton] at h
      exact h2 h.symm
    · exact ih h

/-- A line ending in a trimmed string after a space never ends in CR. -/
theorem getLast?_trimmed_suffix (pre : Str) (v : Str) (hv : trim v = v) :
    (pre ++ ' ' :: v).getLast? ≠ some '\r' := by
  cases hve : v with
  | nil =>
    rw [show pre ++ ' ' :: ([] : Str) = pre ++ [' '] from by simp]
    rw [List.getLast?_concat]
    simp
  | cons a t =>
    have hne : v ≠ [] := by rw [hve]; simp
    have htr : trimRight v = v := by
      conv_lhs => rw [← hv]
      rw [trimRight_trim, hv]
    obtain ⟨f0, lc, hdecomp, hlc⟩ := trimmed_last_nonws v htr hne
    rw [← hve, hdecomp]
    rw [show pre ++ ' ' :: (f0 ++ [lc]) = (pre ++ ' ' :: f0) ++ [lc] from by simp]
    rw [List.getLast?_concat]
    intro hcontra
    have : lc = '\r' := by injection hcontra
    rw [this] at hlc
    exact absurd hlc (by decide)

/-- A flags line never ends in CR. -/
theorem joinSep_flags_last (fs : List Str) (h : ∀ f ∈ fs, trim f = f) :
    ∀ pre : Str, (pre ++ ' ' :: joinSep [',', ' '] fs).getLast? ≠ some '\r' := by
  induction fs with
  | nil =>
    intro pre
    rw [show joinSep [',', ' '] [] = ([] : Str) from rfl]
    exact getLast?_trimmed_suffix pre [] rfl
  | cons f t ih =>
    intro pre
    cases t with
    | nil =>
      rw [show joinSep [',', ' '] [f] = f from rfl]
      exact getLast?_trimmed_suffix pre f (h f (List.mem_cons_self f []))
    | cons f2 t2 =>
      rw [show joinSep [',', ' '] (f :: f2 :: t2)
          = f ++ [',', ' '] ++ joinSep [',', ' '] (f2 :: t2) from rfl]
      rw [show pre ++ ' ' :: (f ++ [',', ' '] ++ joinSep [',', ' '] (f2 :: t2))
          = (pre ++ ' ' :: f ++ [',']) ++ ' ' :: joinSep [',', ' '] (f2 :: t2) from by simp]
      exact ih (fun x hx => h x (List.mem_cons_of_mem f hx)) _

/-- Characters of a comma-space join come from the pieces or are
commas and spaces. -/
theorem mem_joinSep (fs : List Str) (ch : Char) (h : ch ∈ joinSep [',', ' '] fs) :
    (∃ f ∈ fs, ch ∈ f) ∨ ch = ',' ∨ ch = ' ' := by
  induction fs with
  | nil => simp [joinSep] at h
  | cons f t ih =>
    cases t with
    | nil =>
      rw [show joinSep [',', ' '] [f] = f from rfl] at h
      exact Or.inl ⟨f, List.mem_cons_self f [], h⟩
    | cons f2 t2 =>
      rw [show joinSep [',', ' '] (f :: f2 :: t2)
          = f ++ [',', ' '] ++ joinSep [',', ' '] (f2 :: t2) from rfl] at h
      rcases List.mem_append.mp h with h1 | h2
      · rcases List.mem_append.mp h1 with h3 | h4
        · exact Or.inl ⟨f, List.mem_cons_self f _, h3⟩
        · simp only [List.mem_cons, List.mem_singleton, List.not_mem_nil, or_false] at h4
          exact Or.inr h4
      · rcases ih h2 with ⟨g, hg, hcg⟩ | hc
        · exact Or.inl ⟨g, List.mem_cons_of_mem f hg, hcg⟩
        · exact Or.inr hc

/-- Every serialized line of a well-formed catalog is newline-free and
does not end in a carriage return. -/
theorem poLines_lines_ok (f : PoFile) (hwf : WFf f) :
    ∀ l ∈ poLines f, '\n' ∉ l ∧ l.getLast? ≠ some '\r' := by
  obtain ⟨⟨hh, -⟩, hes, -, -⟩ := hwf
  intro l hl
  unfold poLines at hl
  rcases List.mem_append.mp hl with hl | hl
  · -- header block line
    split at hl
    · simp at hl
    · simp only [List.mem_cons] at hl
      rcases hl with rfl | rfl | hl
      · constructor
        · decide
        · rw [show "msgid ".toList ++ [qc, qc] = ("msgid ".toList ++ [qc]) ++ [qc] from by simp]
          rw [List.getLast?_concat]
          decide
      · constructor
        · decide
        · rw [show "msgstr ".toList ++ [qc, qc] = ("msgstr ".toList ++ [qc]) ++ [qc] from by simp]
          rw [List.getLast?_concat]
          decide
      · rcases List.mem_append.mp hl with hl | hl
        · obtain ⟨p, hp, rfl⟩ := List.mem_map.mp hl
          obtain ⟨⟨-, -, hkn⟩, -, hvn⟩ := hh p hp
          constructor
          · unfold headerLine
            intro hmem
            simp only [List.mem_cons] at hmem
            rcases hmem with h1 | h1
            · exact absurd h1.symm (by decide)
            rcases List.mem_append.mp h1 with h2 | h2
            · exact hkn h2
            simp only [List.mem_cons] at h2
            rcases h2 with h3 | h3
            · exact absurd h3.symm (by decide)
            rcases h3 with h4 | h4
            · exact absurd h4.symm (by decide)
            rcases List.mem_append.mp h4 with h5 | h5
            · exact escape_no_newline p.2 h5
            · simp only [List.mem_cons, List.mem_singleton, List.not_mem_nil, or_false] at h5
              rcases h5 with h6 | h6 | h6 <;> exact absurd h6 (by decide)
          · rw [show headerLine p
                = (qc :: (p.1 ++ ':' :: ' ' :: (escape_string p.2 ++ [bs, 'n']))) ++ [qc]
              from by unfold headerLine; simp]
            rw [List.getLast?_concat]
            decide
        · simp only [List.mem_singleton] at hl
          subst hl
          exact ⟨by simp, by simp⟩
  · -- entry line
    obtain ⟨ls, hls, hlin⟩ := List.mem_flatten.mp hl
    obtain ⟨e, he, rfl⟩ := List.mem_map.mp hls
    obtain ⟨hcom, hext, href, hfl, -, -, -⟩ := hes e he
    unfold entryLines at hlin
    rcases List.mem_append.mp hlin with h1 | h1
    · rcases List.mem_append.mp h1 with h2 | h2
      · rcases List.mem_append.mp h2 with h3 | h3
        · rcases List.mem_append.mp h3 with h4 | h4
          · rcases List.mem_append.mp h4 with h5 | h5
            · -- comment line
              obtain ⟨c, hc, rfl⟩ := List.mem_map.mp h5
              obtain ⟨hct, hcn⟩ := hcom c hc
              refine ⟨?_, ?_⟩
              · intro hmem
                simp only [List.mem_cons] at hmem
                rcases hmem with h6 | h6 | h6
                · exact absurd h6.symm (by decide)
                · exact absurd h6.symm (by decide)
                · exact hcn h6
              · rw [show '#' :: ' ' :: c = ['#'] ++ ' ' :: c from rfl]
                exact getLast?_trimmed_suffix ['#'] c hct
            · -- extracted comment line
              obtain ⟨c, hc, rfl⟩ := List.mem_map.mp h5
              obtain ⟨hct, hcn⟩ := hext c hc
              refine ⟨?_, ?_⟩
              · intro hmem
                simp only [List.mem_cons] at hmem
                rcases hmem with h6 | h6 | h6 | h6
                · exact absurd h6.symm (by decide)
                · exact absurd h6.symm (by decide)
                · exact absurd h6.symm (by decide)
                · exact hcn h6
              · rw [show '#' :: '.' :: ' ' :: c = ['#', '.'] ++ ' ' :: c from rfl]
                exact getLast?_trimmed_suffix ['#', '.'] c hct
          · -- reference line
            obtain ⟨r, hr, rfl⟩ := List.mem_map.mp h4
            obtain ⟨hrt, hrn⟩ := href r hr
            refine ⟨?_, ?_⟩
            · intro hmem
              simp only [List.mem_cons] at hmem
              rcases hmem with h6 | h6 | h6 | h6
              · exact absurd h6.symm (by decide)
              · exact absurd h6.symm (by decide)
              · exact absurd h6.symm (by decide)
              · exact hrn h6
            · rw [show '#' :: ':' :: ' ' :: r = ['#', ':'] ++ ' ' :: r from rfl]
              exact getLast?_trimmed_suffix ['#', ':'] r hrt
        · -- flags line
          split at h3
          · simp at h3
          · simp only [List.mem_singleton] at h3
            subst h3
            refine ⟨?_, ?_⟩
            · intro hmem
              simp only [List.mem_cons] at hmem
              rcases hmem with h6 | h6 | h6 | h6
              · exact absurd h6.symm (by decide)
              · exact absurd h6.symm (by decide)
              · exact absurd h6.symm (by decide)
              · rcases mem_joinSep e.flags '\n' h6 with ⟨g, hg, hcg⟩ | hc | hc
                · exact (hfl g hg).2.2 hcg
                · exact absurd hc (by decide)
                · exact absurd hc (by decide)
            · rw [show '#' :: ',' :: ' ' :: joinSep [',', ' '] e.flags
                  = ['#', ','] ++ ' ' :: joinSep [',', ' '] e.flags from rfl]
              exact joinSep_flags_last e.flags (fun x hx => (hfl x hx).1) ['#', ',']
      · -- msgctxt line
        cases hctxe : e.msgctxt with
        | none =>
          rw [hctxe] at h2
          simp at h2
        | some cval =>
          rw [hctxe] at h2
          simp only [List.mem_singleton] at h2
          subst h2
          refine ⟨?_, ?_⟩
          · intro hmem
            rcases List.mem_append.mp hmem with h6 | h6
            · revert h6
              decide
            · simp only [List.mem_cons] at h6
              rcases h6 with h7 | h7
              · exact absurd h7.symm (by decide)
              rcases List.mem_append.mp h7 with h8 | h8
              · exact escape_no_newline cval h8
              · simp only [List.mem_singleton] at h8
                exact absurd h8.symm (by decide)
          · rw [show "msgctxt ".toList ++ qc :: (escape_string cval ++ [qc])
                = ("msgctxt ".toList ++ qc :: escape_string cval) ++ [qc] from by simp]
            rw [List.getLast?_concat]
            decide
    · -- msgid / msgstr / blank line
      simp only [List.mem_cons] at h1
      rcases h1 with rfl | rfl | rfl | h1
      · refine ⟨?_, ?_⟩
        · intro hmem
          rcases List.mem_append.mp hmem with h6 | h6
          · revert h6
            decide
          · simp only [List.mem_cons] at h6
            rcases h6 with h7 | h7
            · exact absurd h7.symm (by decide)
            rcases List.mem_append.mp h7 with h8 | h8
            · exact escape_no_newline _ h8
            · simp only [List.mem_singleton] at h8
              exact absurd h8.symm (by decide)
        · rw [show "msgid ".toList ++ qc :: (escape_string e.msgid ++ [qc])
              = ("msgid ".toList ++ qc :: escape_string e.msgid) ++ [qc] from by simp]
          rw [List.getLast?_concat]
          decide
      · refine ⟨?_, ?_⟩
        · intro hmem
          rcases List.mem_append.mp hmem with h6 | h6
          · revert h6
            decide
          · simp only [List.mem_cons] at h6
            rcases h6 with h7 | h7
            · exact absurd h7.symm (by decide)
            rcases List.mem_append.mp h7 with h8 | h8
            · exact escape_no_newline _ h8
            · simp only [List.mem_singleton] at h8
              exact absurd h8.symm (by decide)
        · rw [show "msgstr ".toList ++ qc :: (escape_string e.msgstr ++ [qc])
              = ("msgstr ".toList ++ qc :: escape_string e.msgstr) ++ [qc] from by simp]
          rw [List.getLast?_concat]
          decide
      · exact ⟨by simp, by simp⟩
      · simp at h1

/-- Serializing then splitting into lines recovers the serialized
lines. -/
theorem splitLines_to_string (f : PoFile) (hwf : WFf f) :
    splitLines (PoFile.to_string f) = poLines f := by
  unfold PoFile.to_string
  exact splitLines_join (poLines f) (poLines_lines_ok f hwf)

end Poterm

namespace Poterm

/-- Merging the serialized header text into an empty header recovers
the header. -/
theorem headerMerge_hdrText (hdr : List (Str × Str)) (hwf : WFh hdr) :
    headerMerge [] (hdrText hdr) = hdr := by
  obtain ⟨hkv, hnd⟩ := hwf
  unfold headerMerge hdrText
  have hmm : (hdr.map (fun p => hline p ++ ['\n']))
      = (hdr.map hline).map (fun l => l ++ ['\n']) := by
    rw [List.map_map]
    rfl
  rw [hmm]
  rw [splitLines_join (hdr.map hline) (by
    intro l hl
    obtain ⟨p, hp, rfl⟩ := List.mem_map.mp hl
    obtain ⟨⟨hkt, hkc, hkn⟩, hvt, hvn⟩ := hkv p hp
    constructor
    · unfold hline
      intro hmem
      rcases List.mem_append.mp hmem with h1 | h1
      · exact hkn h1
      simp only [List.mem_cons] at h1
      rcases h1 with h2 | h2 | h2
      · exact absurd h2.symm (by decide)
      · exact absurd h2.symm (by decide)
      · exact hvn h2
    · rw [show hline p = (p.1 ++ [':']) ++ ' ' :: p.2 from by unfold hline; simp]
      exact getLast?_trimmed_suffix (p.1 ++ [':']) p.2 hvt)]
  rw [headerMerge_lines hdr []
    (fun p hp => ⟨((hkv p hp).1).2.1, ((hkv p hp).1).1, ((hkv p hp).2).1⟩)
    (fun p hp q hq => absurd hq (by simp))
    hnd]
  simp

/-- Each serialized entry block is at least three lines long. -/
theorem flatten_entryLines_ge (es : List PoEntry) :
    2 * es.length ≤ ((es.map entryLines).flatten).length := by
  induction es with
  | nil => simp
  | cons e t ih =>
    simp only [List.map_cons, List.flatten_cons, List.length_append, List.length_cons]
    have h3 : 3 ≤ (entryLines e).length := by
      unfold entryLines
      simp only [List.append_assoc, List.length_append, List.length_cons, List.length_nil]
      omega
    omega

/-- Round trip: serializing a well-formed catalog whose header keys
contain no backslash and reparsing recovers the catalog exactly. -/
theorem parse_to_string (C : PoFile) (hwf : WFf C)
    (hbs : ∀ p ∈ C.header, ∀ ch ∈ p.1, ch ≠ bs) :
    parse (PoFile.to_string C) = some C := by
  obtain ⟨hwfh, hes, hpath, hmod⟩ := hwf
  simp only [parse]
  rw [splitLines_to_string C ⟨hwfh, hes, hpath, hmod⟩]
  have h2k := flatten_entryLines_ge C.entries
  cases hhd : C.header with
  | nil =>
    have hpl : poLines C = (C.entries.map entryLines).flatten := by
      unfold poLines
      rw [hhd]
      simp
    rw [hpl]
    have hfuel : ((C.entries.map entryLines).flatten).length + 1
        = 2 * C.entries.length
          + ((((C.entries.map entryLines).flatten).length - 2 * C.entries.length) + 1) := by
      omega
    rw [hfuel]
    rw [parseLoopF_entries C.entries hes _ _ true]
    show some _ = some C
    obtain ⟨pth, hd, es, md⟩ := C
    simp only at hhd hpath hmod
    simp [hhd, hpath, hmod]
  | cons p0 t0 =>
    have hpl : poLines C
        = ("msgid ".toList ++ [qc, qc]) :: ("msgstr ".toList ++ [qc, qc]) ::
            (C.header.map headerLine ++ ([] :: (C.entries.map entryLines).flatten)) := by
      unfold poLines
      rw [hhd]
      simp
    rw [hpl, ← hhd] at *
    have hfuel : ((("msgid ".toList ++ [qc, qc]) :: ("msgstr ".toList ++ [qc, qc]) ::
            (C.header.map headerLine ++ ([] :: (C.entries.map entryLines).flatten)))).length + 1
        = (2 * C.entries.length
            + (((((("msgid ".toList ++ [qc, qc]) :: ("msgstr ".toList ++ [qc, qc]) ::
              (C.header.map headerLine
                ++ ([] :: (C.entries.map entryLines).flatten)))).length + 1)
              - 2 * C.entries.length - 3) + 1)) + 2 := by
      simp only [List.length_cons, List.length_append]
      omega
    rw [hfuel]
    rw [parseLoopF_header_step _ _ C.header _ hbs]
    simp only [show ({ path := none, header := [], entries := [], modified := false }
        : PoFile).header = [] from rfl,
      show ({ path := none, header := [], entries := [], modified := false }
        : PoFile).path = none from rfl,
      show ({ path := none, header := [], entries := [], modified := false }
        : PoFile).entries = [] from rfl,
      show ({ path := none, header := [], entries := [], modified := false }
        : PoFile).modified = false from rfl]
    rw [headerMerge_hdrText C.header hwfh]
    rw [parseLoopF_entries C.entries hes _ _ false]
    show some _ = some C
    obtain ⟨pth, hd, es, md⟩ := C
    simp only at hpath hmod
    simp [hpath, hmod]

end Poterm

namespace Poterm

/-! ## Parsed catalogs are well-formed -/

/-- The continuation loop returns a suffix of its input lines. -/
theorem parseContin_mem (ls : List Str) :
    ∀ (acc v : Str) (ls' : List Str),
      parseContin acc ls = some (v, ls') → ∀ x ∈ ls', x ∈ ls := by
  induction ls with
  | nil =>
    intro acc v ls' h x hx
    simp only [parseContin] at h
    injection h with h1
    injection h1 with h2 h3
    rw [← h3] at hx
    exact absurd hx (by simp)
  | cons l rest ih =>
    intro acc v ls' h x hx
    rw [parseContin_cons] at h
    by_cases hq : isPre [qc] (trim l) = true
    · rw [if_pos hq] at h
      cases hpsl : parse_string_literal (trim l) with
      | none =>
        rw [hpsl] at h
        exact absurd h (by simp)
      | some w =>
        rw [hpsl] at h
        exact List.mem_cons_of_mem l (ih (acc ++ w) v ls' h x hx)
    · rw [if_neg hq] at h
      injection h with h1
      injection h1 with h2 h3
      rw [← h3] at hx
      exact hx

/-- A keyword section returns a suffix of its input lines. -/
theorem parseKw_mem (kw : Str) (ls : List Str) (ov : Option Str) (ls' : List Str)
    (h : parseKw kw ls = some (ov, ls')) : ∀ x ∈ ls', x ∈ ls := by
  cases ls with
  | nil =>
    intro x hx
    simp only [parseKw] at h
    injection h with h1
    injection h1 with h2 h3
    rw [← h3] at hx
    exact absurd hx (by simp)
  | cons l rest =>
    intro x hx
    rw [parseKw_cons] at h
    by_cases hp : isPre kw (trim l) = true
    · rw [if_pos hp] at h
      cases hc : parseContin (parse_string_value (trim l)) rest with
      | none =>
        rw [hc] at h
        exact absurd h (by simp)
      | some pr =>
        obtain ⟨w, ls2⟩ := pr
        rw [hc] at h
        injection h with h1
        injection h1 with h2 h3
        rw [← h3] at hx
        exact List.mem_cons_of_mem l (parseContin_mem rest _ w ls2 hc x hx)
    · rw [if_neg hp] at h
      injection h with h1
      injection h1 with h2 h3
      rw [← h3] at hx
      exact hx

/-- The metadata loop returns a suffix of its input lines. -/
theorem parseMeta_mem (ls : List Str) :
    ∀ (e e' : PoEntry) (ls' : List Str),
      parseMeta e ls = (e', ls') → ∀ x ∈ ls', x ∈ ls := by
  induction ls with
  | nil =>
    intro e e' ls' h x hx
    simp only [parseMeta] at h
    injection h with h1 h2
    rw [← h2] at hx
    exact absurd hx (by simp)
  | cons l rest ih =>
    intro e e' ls' h x hx
    rw [parseMeta_cons] at h
    by_cases h0 : (trim l).isEmpty = true
    · rw [if_pos h0] at h
      injection h with h1 h2
      rw [← h2] at hx
      exact hx
    rw [if_neg h0] at h
    by_cases h1 : isPre "#.".toList (trim l) = true
    · rw [if_pos h1] at h
      exact List.mem_cons_of_mem l (ih _ e' ls' h x hx)
    rw [if_neg h1] at h
    by_cases h2 : isPre "#:".toList (trim l) = true
    · rw [if_pos h2] at h
      exact List.mem_cons_of_mem l (ih _ e' ls' h x hx)
    rw [if_neg h2] at h
    by_cases h3 : isPre "#,".toList (trim l) = true
    · rw [if_pos h3] at h
      exact List.mem_cons_of_mem l (ih _ e' ls' h x hx)
    rw [if_neg h3] at h
    by_cases h4 : (isPre "#".toList (trim l) && !isPre "#~".toList (trim l)) = true
    · rw [if_pos h4] at h
      exact List.mem_cons_of_mem l (ih _ e' ls' h x hx)
    rw [if_neg h4] at h
    injection h with h5 h6
    rw [← h6] at hx
    exact hx

/-- The metadata invariant accumulated by the metadata loop. -/
def MetaOK (e : PoEntry) : Prop :=
  (∀ c ∈ e.comments, trim c = c ∧ '\n' ∉ c) ∧
  (∀ c ∈ e.extracted_comments, trim c = c ∧ '\n' ∉ c) ∧
  (∀ r ∈ e.references, trim r = r ∧ '\n' ∉ r) ∧
  (∀ f ∈ e.flags, trim f = f ∧ ',' ∉ f ∧ '\n' ∉ f)

/-- The metadata loop preserves the metadata invariant when every
input line is newline-free. -/
theorem parseMeta_wf (ls : List Str) :
    ∀ (e e' : PoEntry) (ls' : List Str),
      (∀ l ∈ ls, '\n' ∉ l) → MetaOK e → parseMeta e ls = (e', ls') → MetaOK e' := by
  induction ls with
  | nil =>
    intro e e' ls' hls he h
    simp only [parseMeta] at h
    injection h with h1 h2
    rw [← h1]
    exact he
  | cons l rest ih =>
    intro e e' ls' hls he h
    have hln : '\n' ∉ l := hls l (List.mem_cons_self l rest)
    have hrest : ∀ x ∈ rest, '\n' ∉ x := fun x hx => hls x (List.mem_cons_of_mem l hx)
    have hsub : ∀ n, ∀ ch ∈ trim ((trim l).drop n), ch ∈ l := fun n ch hch =>
      mem_of_mem_trim ch l (List.drop_subset n (trim l) (mem_of_mem_trim ch _ hch))
    obtain ⟨hec, hee, her, hef⟩ := he
    rw [parseMeta_cons] at h
    by_cases h0 : (trim l).isEmpty = true
    · rw [if_pos h0] at h
      injection h with h1 h2
      rw [← h1]
      exact ⟨hec, hee, her, hef⟩
    rw [if_neg h0] at h
    by_cases h1 : isPre "#.".toList (trim l) = true
    · rw [if_pos h1] at h
      refine ih { e with extracted_comments := e.extracted_comments ++ [trim ((trim l).drop 2)] }
        e' ls' hrest ⟨hec, ?_, her, hef⟩ h
      intro c hc
      rcases List.mem_append.mp hc with hc | hc
      · exact hee c hc
      · simp only [List.mem_singleton] at hc
        subst hc
        exact ⟨trim_idem _, fun hmem => hln (hsub 2 '\n' hmem)⟩
    rw [if_neg h1] at h
    by_cases h2 : isPre "#:".toList (trim l) = true
    · rw [if_pos h2] at h
      refine ih { e with references := e.references ++ [trim ((trim l).drop 2)] }
        e' ls' hrest ⟨hec, hee, ?_, hef⟩ h
      intro r hr
      rcases List.mem_append.mp hr with hr | hr
      · exact her r hr
      · simp only [List.mem_singleton] at hr
        subst hr
        exact ⟨trim_idem _, fun hmem => hln (hsub 2 '\n' hmem)⟩
    rw [if_neg h2] at h
    by_cases h3 : isPre "#,".toList (trim l) = true
    · rw [if_pos h3] at h
      refine ih { e with flags := e.flags ++ (splitOnChar ',' ((trim l).drop 2)).map trim }
        e' ls' hrest ⟨hec, hee, her, ?_⟩ h
      intro g hg
      rcases List.mem_append.mp hg with hg | hg
      · exact hef g hg
      · obtain ⟨p, hp, rfl⟩ := List.mem_map.mp hg
        obtain ⟨hpc, hpmem⟩ := splitOnChar_pieces ',' ((trim l).drop 2) p hp
        refine ⟨trim_idem _, ?_, ?_⟩
        · intro hmem
          exact hpc (mem_of_mem_trim ',' p hmem)
        · intro hmem
          exact hln (mem_of_mem_trim '\n' l
            (List.drop_subset 2 (trim l) (hpmem '\n' (mem_of_mem_trim '\n' p hmem))))
    rw [if_neg h3] at h
    by_cases h4 : (isPre "#".toList (trim l) && !isPre "#~".toList (trim l)) = true
    · rw [if_pos h4] at h
      refine ih { e with comments := e.comments ++ [trim ((trim l).drop 1)] }
        e' ls' hrest ⟨?_, hee, her, hef⟩ h
      intro c hc
      rcases List.mem_append.mp hc with hc | hc
      · exact hec c hc
      · simp only [List.mem_singleton] at hc
        subst hc
        exact ⟨trim_idem _, fun hmem => hln (hsub 1 '\n' hmem)⟩
    rw [if_neg h4] at h
    injection h with h5 h6
    rw [← h5]
    exact ⟨hec, hee, her, hef⟩

end Poterm

namespace Poterm

/-- The block parser returns a suffix of its input and takes its
metadata fields from the metadata loop. -/
theorem parseBlock_spec (ls : List Str) (e0 : PoEntry) (ls' : List Str)
    (h : parseBlock ls = some (e0, ls')) :
    (∀ x ∈ ls', x ∈ ls) ∧
    e0.comments = (parseMeta PoEntry.new ls).1.comments ∧
    e0.extracted_comments = (parseMeta PoEntry.new ls).1.extracted_comments ∧
    e0.references = (parseMeta PoEntry.new ls).1.references ∧
    e0.flags = (parseMeta PoEntry.new ls).1.flags := by
  have hm : parseMeta PoEntry.new ls
      = ((parseMeta PoEntry.new ls).1, (parseMeta PoEntry.new ls).2) := rfl
  rw [parseBlock_eq2 _ _ _ hm] at h
  cases hk1 : parseKw "msgctxt".toList (parseMeta PoEntry.new ls).2 with
  | none =>
    rw [hk1] at h
    simp at h
  | some pr =>
  obtain ⟨octx, ls2⟩ := pr
  simp only [hk1] at h
  cases hk2 : parseKw "msgid".toList ls2 with
  | none =>
    rw [hk2] at h
    simp at h
  | some pr2 =>
  obtain ⟨omid, ls3⟩ := pr2
  simp only [hk2] at h
  cases hk3 : parseKw "msgstr".toList ls3 with
  | none =>
    rw [hk3] at h
    simp at h
  | some pr3 =>
  obtain ⟨omstr, ls4⟩ := pr3
  simp only [hk3] at h
  have hmem4 : ∀ x ∈ ls4, x ∈ ls := by
    intro x hx
    exact parseMeta_mem ls PoEntry.new _ _ hm x
      (parseKw_mem _ _ _ _ hk1 x
        (parseKw_mem _ _ _ _ hk2 x (parseKw_mem _ _ _ _ hk3 x hx)))
  cases octx <;> cases omid <;> cases omstr <;>
    · simp only [Option.some.injEq, Prod.mk.injEq] at h
      obtain ⟨h4, h5⟩ := h
      subst h4
      subst h5
      exact ⟨hmem4, rfl, rfl, rfl, rfl⟩

/-- Recomputing the status yields a well-formed entry from
well-formed metadata and a non-empty `msgid`. -/
theorem WFe_update_status (e0 : PoEntry) (hm : MetaOK e0) (hid : e0.msgid ≠ []) :
    WFe e0.update_status := by
  obtain ⟨h1, h2, h3, h4⟩ := hm
  exact ⟨h1, h2, h3, h4, rfl, rfl, hid⟩

/-- Inserting a well-formed key/value pair preserves header
well-formedness. -/
theorem headerInsert_wf (h : List (Str × Str)) (k v : Str)
    (hwf : WFh h) (hk : KeyOK k) (hv : ValOK v) : WFh (headerInsert h k v) := by
  obtain ⟨hkv, hnd⟩ := hwf
  unfold headerInsert
  by_cases hany : h.any (fun p => p.1 == k) = true
  · rw [if_pos hany]
    constructor
    · intro q hq
      obtain ⟨p, hp, hq'⟩ := List.mem_map.mp hq
      by_cases hpk : (p.1 == k) = true
      · rw [if_pos hpk] at hq'
        rw [← hq']
        exact ⟨(hkv p hp).1, hv⟩
      · rw [if_neg hpk] at hq'
        rw [← hq']
        exact hkv p hp
    · have hkeys : (h.map (fun p => if p.1 == k then (p.1, v) else p)).map Prod.fst
          = h.map Prod.fst := by
        rw [List.map_map]
        apply List.map_congr_left
        intro p hp
        show (if p.1 == k then (p.1, v) else p).1 = p.1
        split <;> rfl
      rw [hkeys]
      exact hnd
  · rw [if_neg hany]
    constructor
    · intro q hq
      rcases List.mem_append.mp hq with hq | hq
      · exact hkv q hq
      · simp only [List.mem_singleton] at hq
        rw [hq]
        exact ⟨hk, hv⟩
    · rw [List.map_append]
      rw [List.nodup_append]
      refine ⟨hnd, by simp, ?_⟩
      intro a ha ha'
      simp only [List.map_cons, List.map_nil, List.mem_singleton] at ha'
      obtain ⟨p, hp, hpk⟩ := List.mem_map.mp ha
      have hanyf : h.any (fun p => p.1 == k) = false := by
        cases hx : h.any (fun p => p.1 == k)
        · rfl
        · exact absurd hx hany
      have hne := List.any_eq_false.mp hanyf p hp
      rw [hpk, ha'] at hne
      simp at hne

/-- Folding header lines into a well-formed header keeps it
well-formed. -/
theorem headerMerge_wf_aux (ls : List Str) :
    ∀ acc : List (Str × Str), (∀ l ∈ ls, '\n' ∉ l) → WFh acc →
      WFh (ls.foldl
        (fun acc line =>
          match findIdx1 ':' line with
          | none => acc
          | some j => headerInsert acc (trim (line.take j)) (trim (line.drop (j + 1))))
        acc) := by
  induction ls with
  | nil =>
    intro acc _ hacc
    exact hacc
  | cons l rest ih =>
    intro acc hls hacc
    rw [List.foldl_cons]
    cases hf : findIdx1 ':' l with
    | none =>
      simp only [hf]
      exact ih acc (fun x hx => hls x (List.mem_cons_of_mem l hx)) hacc
    | some j =>
      simp only [hf]
      refine ih _ (fun x hx => hls x (List.mem_cons_of_mem l hx))
        (headerInsert_wf acc _ _ hacc ⟨trim_idem _, ?_, ?_⟩ ⟨trim_idem _, ?_⟩)
      · intro hmem
        exact (findIdx1_spec ':' l j hf).1 (mem_of_mem_trim ':' _ hmem)
      · intro hmem
        exact hls l (List.mem_cons_self l rest)
          (List.take_subset j l (mem_of_mem_trim '\n' _ hmem))
      · intro hmem
        exact hls l (List.mem_cons_self l rest)
          (List.drop_subset (j + 1) l (mem_of_mem_trim '\n' _ hmem))

/-- Merging any `msgstr` text into a well-formed header keeps it
well-formed. -/
theorem headerMerge_wf (h : List (Str × Str)) (s : Str) (hwf : WFh h) :
    WFh (headerMerge h s) :=
  headerMerge_wf_aux (splitLines s) h (splitLines_no_newline s) hwf

/-- The parse loop preserves catalog well-formedness. -/
theorem parseLoopF_wf (f : Nat) :
    ∀ (ls : List Str) (acc : PoFile) (b : Bool) (C : PoFile),
      (∀ l ∈ ls, '\n' ∉ l) → WFf acc → parseLoopF f acc b ls = some C → WFf C := by
  induction f with
  | zero =>
    intro ls acc b C _ _ h
    exact absurd h (by simp [parseLoopF])
  | succ g ih =>
    intro ls acc b C hls hacc h
    cases ls with
    | nil =>
      simp only [parseLoopF] at h
      injection h with h1
      rw [← h1]
      exact hacc
    | cons l rest =>
      rw [parseLoopF_cons] at h
      by_cases h0 : (trim l).isEmpty = true
      · rw [if_pos h0] at h
        exact ih rest acc false C (fun x hx => hls x (List.mem_cons_of_mem l hx)) hacc h
      rw [if_neg h0] at h
      cases hb : parseBlock (l :: rest) with
      | none =>
        rw [hb] at h
        simp at h
      | some pr =>
        obtain ⟨e0, ls'⟩ := pr
        simp only [hb] at h
        obtain ⟨hmem, hc, he2, hr, hfl2⟩ := parseBlock_spec (l :: rest) e0 ls' hb
        have hmnew : MetaOK PoEntry.new := by
          refine ⟨?_, ?_, ?_, ?_⟩ <;> · intro x hx; simp [PoEntry.new] at hx
        have hmeta : MetaOK (parseMeta PoEntry.new (l :: rest)).1 :=
          parseMeta_wf (l :: rest) PoEntry.new _ _ hls hmnew rfl
        have hm0 : MetaOK e0 := by
          refine ⟨?_, ?_, ?_, ?_⟩
          · rw [hc]
            exact hmeta.1
          · rw [he2]
            exact hmeta.2.1
          · rw [hr]
            exact hmeta.2.2.1
          · rw [hfl2]
            exact hmeta.2.2.2
        have hls' : ∀ x ∈ ls', '\n' ∉ x := fun x hx => hls x (hmem x hx)
        by_cases hidb : ((e0.update_status).msgid.isEmpty && b) = true
        · rw [if_pos hidb] at h
          obtain ⟨hh, hes, hp, hmo⟩ := hacc
          exact ih ls'
            { acc with header := headerMerge acc.header (e0.update_status).msgstr }
            false C hls' ⟨headerMerge_wf _ _ hh, hes, hp, hmo⟩ h
        rw [if_neg hidb] at h
        by_cases hid2 : (!(e0.update_status).msgid.isEmpty) = true
        · rw [if_pos hid2] at h
          obtain ⟨hh, hes, hp, hmo⟩ := hacc
          refine ih ls' { acc with entries := acc.entries ++ [e0.update_status] }
            false C hls' ⟨hh, ?_, hp, hmo⟩ h
          intro x hx
          rcases List.mem_append.mp hx with hx | hx
          · exact hes x hx
          · simp only [List.mem_singleton] at hx
            subst hx
            refine WFe_update_status e0 hm0 ?_
            intro hn
            rw [show (e0.update_status).msgid = e0.msgid from rfl, hn] at hid2
            simp at hid2
        · rw [if_neg hid2] at h
          exact ih ls' acc false C hls' hacc h

/-- Every catalog produced by `parse` is well-formed. -/
theorem parse_wf (t : Str) (C : PoFile) (h : parse t = some C) : WFf C := by
  simp only [parse] at h
  exact parseLoopF_wf _ _ _ _ C (splitLines_no_newline t)
    ⟨⟨by simp, by simp⟩, by simp, rfl, rfl⟩ h

end Poterm

namespace Poterm

/-- Once the first input line has been consumed (`start_i ≠ 0`), the
loop never changes the header again. -/
theorem parseLoopF_false_header (f : Nat) :
    ∀ (ls : List Str) (acc C : PoFile),
      parseLoopF f acc false ls = some C → C.header = acc.header := by
  induction f with
  | zero =>
    intro ls acc C h
    exact absurd h (by simp [parseLoopF])
  | succ g ih =>
    intro ls acc C h
    cases ls with
    | nil =>
      simp only [parseLoopF] at h
      injection h with h1
      rw [← h1]
    | cons l rest =>
      rw [parseLoopF_cons] at h
      by_cases h0 : (trim l).isEmpty = true
      · rw [if_pos h0] at h
        exact ih rest acc C h
      rw [if_neg h0] at h
      cases hb : parseBlock (l :: rest) with
      | none =>
        rw [hb] at h
        simp at h
      | some pr =>
        obtain ⟨e0, ls'⟩ := pr
        simp only [hb] at h
        rw [if_neg (by simp)] at h
        by_cases hid : (!(e0.update_status).msgid.isEmpty) = true
        · rw [if_pos hid] at h
          exact ih ls' { acc with entries := acc.entries ++ [e0.update_status] } C h
        · rw [if_neg hid] at h
          exact ih ls' acc C h

/-! ## Claim C2: the serialize/parse round trip -/

/-- A parse input whose header key acquires a literal backslash:
`msgid ""` then `msgstr "a\\nb: v\n"`. -/
def c2input : Str :=
  "msgid ".toList ++ [qc, qc, '\n'] ++
  "msgstr ".toList ++ [qc, 'a', bs, bs, 'n', 'b', ':', ' ', 'v', bs, 'n', qc, '\n']

/-- The catalog parsed from `c2input`: one header pair whose key is
the four characters `a`, `\`, `n`, `b`. -/
def c2cat : PoFile :=
  { path := none, header := [(['a', bs, 'n', 'b'], ['v'])], entries := [], modified := false }

/-- C2, counterexample: `c2input` parses to a catalog `c2cat` built by
the parser, yet reparsing its serialization does not yield `c2cat`:
`to_string` writes the header key unescaped, so the `\`+`n` in the key
comes back as a newline and the key is split. -/
theorem C2_counterexample :
    parse c2input = some c2cat ∧ parse (PoFile.to_string c2cat) ≠ some c2cat := by
  constructor
  · decide
  · decide

/-- C2, amended: for every catalog `C` produced by `parse`, if no
header key of `C` contains a backslash, then parsing the serialization
of `C` yields exactly `C` — all entry fields, entry order, and the
header key/value pairs in insertion order. -/
theorem C2_amended (t : Str) (C : PoFile) (h : parse t = some C)
    (hbs : ∀ p ∈ C.header, ∀ ch ∈ p.1, ch ≠ bs) :
    parse (PoFile.to_string C) = some C :=
  parse_to_string C (parse_wf t C h) hbs

/-- A benign parse input: a header block and one translated entry. -/
def c2winput : Str :=
  "msgid ".toList ++ [qc, qc, '\n'] ++
  "msgstr ".toList ++ [qc, 'K', ':', ' ', 'V', bs, 'n', qc, '\n', '\n'] ++
  "msgid ".toList ++ [qc, 'h', 'i', qc, '\n'] ++
  "msgstr ".toList ++ [qc, 'y', 'o', qc, '\n']

/-- The catalog parsed from `c2winput`. -/
def c2wcat : PoFile :=
  { path := none
    header := [(['K'], ['V'])]
    entries := [{ msgid := ['h', 'i'], msgstr := ['y', 'o'], msgctxt := none, comments := [],
                  extracted_comments := [], references := [], flags := [],
                  is_fuzzy := false, is_translated := true }]
    modified := false }

/-- C2 witness: the amended round trip at a concrete parsed catalog. -/
theorem C2_witness :
    parse c2winput = some c2wcat ∧
    (∀ p ∈ c2wcat.header, ∀ ch ∈ p.1, ch ≠ bs) ∧
    parse (PoFile.to_string c2wcat) = some c2wcat :=
  ⟨by decide, by decide, C2_amended c2winput c2wcat (by decide) (by decide)⟩

end Poterm

namespace Poterm

/-! ## Claim C3: which block populates the header -/

/-- A header-style block preceded by one blank line. -/
def c3cinput : Str :=
  '\n' :: ("msgid ".toList ++ [qc, qc, '\n'] ++
    "msgstr ".toList ++ [qc, 'K', ':', ' ', 'V', bs, 'n', qc, '\n'])

/-- The entry parsed (before status update) from the block of
`c3cinput`. -/
def c3cEntry : PoEntry :=
  { PoEntry.new with msgstr := ['K', ':', ' ', 'V', '\n'] }

/-- C3, counterexample: in `c3cinput` the first parsed block has an
empty `msgid` and header text that would merge to `K ↦ V`, yet —
because a blank line precedes it, so the block does not start at
line 0 — the parsed catalog has an empty header and no entries: the
block is dropped, contradicting the claim that the first empty-`msgid`
block populates the header. -/
theorem C3_counterexample :
    splitLines c3cinput = [] :: (splitLines c3cinput).tail ∧
    parseBlock ((splitLines c3cinput).tail) = some (c3cEntry, []) ∧
    (c3cEntry.update_status).msgid = [] ∧
    headerMerge [] ((c3cEntry.update_status).msgstr) = [(['K'], ['V'])] ∧
    parse c3cinput = some { path := none, header := [], entries := [], modified := false } := by
  refine ⟨by decide, by decide, by decide, by decide, by decide⟩

/-- C3, amended: only a block that starts at the very first input line
can populate the header.  (1) Once the first line is consumed the
header is frozen for the rest of the parse; (2) no parsed entry has an
empty `msgid`, so every later empty-`msgid` block is dropped — neither
merged into the header nor appended; (3) if the input's first line
opens a block whose status-updated entry has an empty `msgid`, the
final header is exactly that block's `msgstr` merged into the empty
header. -/
theorem C3_amended :
    (∀ (f : Nat) (ls : List Str) (acc C : PoFile),
        parseLoopF f acc false ls = some C → C.header = acc.header) ∧
    (∀ (t : Str) (C : PoFile), parse t = some C → ∀ e ∈ C.entries, e.msgid ≠ []) ∧
    (∀ (t l : Str) (rest : List Str) (e0 : PoEntry) (ls' : List Str) (C : PoFile),
        splitLines t = l :: rest → (trim l).isEmpty = false →
        parseBlock (l :: rest) = some (e0, ls') → (e0.update_status).msgid = [] →
        parse t = some C → C.header = headerMerge [] (e0.update_status).msgstr) := by
  refine ⟨parseLoopF_false_header, ?_, ?_⟩
  · intro t C h e he
    exact ((parse_wf t C h).2.1 e he).2.2.2.2.2.2
  · intro t l rest e0 ls' C hsp h0 hb hid hC
    simp only [parse] at hC
    rw [hsp] at hC
    rw [parseLoopF_cons] at hC
    rw [if_neg (by simp [h0])] at hC
    simp only [hb] at hC
    rw [if_pos (by simp [hid])] at hC
    exact parseLoopF_false_header _ ls' _ C hC

/-- The first block of `c3winput`, a header block followed by a second
empty-`msgid` block. -/
def c3winput : Str :=
  "msgid ".toList ++ [qc, qc, '\n'] ++
  "msgstr ".toList ++ [qc, 'K', ':', ' ', 'V', bs, 'n', qc, '\n', '\n'] ++
  "msgid ".toList ++ [qc, qc, '\n'] ++
  "msgstr ".toList ++ [qc, 'X', ':', ' ', 'Y', bs, 'n', qc, '\n']

/-- First line of `c3winput`. -/
def c3wline1 : Str := "msgid ".toList ++ [qc, qc]

/-- The remaining lines of `c3winput`. -/
def c3wrest : List Str :=
  ["msgstr ".toList ++ [qc, 'K', ':', ' ', 'V', bs, 'n', qc], [],
   "msgid ".toList ++ [qc, qc],
   "msgstr ".toList ++ [qc, 'X', ':', ' ', 'Y', bs, 'n', qc]]

/-- The lines left after the first block of `c3winput`. -/
def c3wls : List Str :=
  [[], "msgid ".toList ++ [qc, qc],
   "msgstr ".toList ++ [qc, 'X', ':', ' ', 'Y', bs, 'n', qc]]

/-- The entry parsed (before status update) from the first block of
`c3winput`. -/
def c3wE : PoEntry :=
  { PoEntry.new with msgstr := ['K', ':', ' ', 'V', '\n'] }

/-- The catalog parsed from `c3winput`: only the first empty-`msgid`
block became the header; the second was dropped. -/
def c3wcat : PoFile :=
  { path := none, header := [(['K'], ['V'])], entries := [], modified := false }

/-- C3 witness: all three amended statements at concrete inputs. -/
theorem C3_witness :
    (parseLoopF 2 c3wcat false [[]] = some c3wcat ∧ c3wcat.header = c3wcat.header) ∧
    (∀ e ∈ c2wcat.entries, e.msgid ≠ []) ∧
    (splitLines c3winput = c3wline1 :: c3wrest ∧
     parseBlock (c3wline1 :: c3wrest) = some (c3wE, c3wls) ∧
     (c3wE.update_status).msgid = [] ∧
     parse c3winput = some c3wcat ∧
     c3wcat.header = headerMerge [] ((c3wE.update_status).msgstr)) := by
  refine ⟨⟨by decide, C3_amended.1 2 [[]] c3wcat c3wcat (by decide)⟩,
    C3_amended.2.1 c2winput c2wcat (by decide),
    by decide, by decide, by decide, by decide, ?_⟩
  exact C3_amended.2.2 c3winput c3wline1 c3wrest c3wE c3wls c3wcat
    (by decide) (by decide) (by decide) (by decide) (by decide)

/-! ## Claim C5: the derived status fields -/

/-- The derived-status invariant of an entry. -/
def StatusOK (e : PoEntry) : Prop :=
  e.is_fuzzy = e.flags.contains fuzzyS ∧
  e.is_translated = (!e.msgstr.isEmpty && !e.flags.contains fuzzyS)

/-- C5: after every mutating entry operation — setting the
translation, toggling the fuzzy flag, marking done — and for every
entry of a parsed catalog, the derived fields satisfy
`is_fuzzy = flags.contains "fuzzy"` and
`is_translated = (msgstr nonempty ∧ ¬is_fuzzy)`. -/
theorem C5_derived_status :
    (∀ (e : PoEntry) (s : Str), StatusOK (PoEntry.set_msgstr e s)) ∧
    (∀ e : PoEntry, StatusOK (PoEntry.toggle_fuzzy e)) ∧
    (∀ e : PoEntry, StatusOK (PoEntry.mark_done e)) ∧
    (∀ (t : Str) (C : PoFile), parse t = some C → ∀ e ∈ C.entries, StatusOK e) := by
  refine ⟨fun e s => ⟨rfl, rfl⟩, fun e => ⟨rfl, rfl⟩, fun e => ⟨rfl, rfl⟩, ?_⟩
  intro t C h e he
  obtain ⟨-, hes, -, -⟩ := parse_wf t C h
  obtain ⟨-, -, -, -, hf, ht, -⟩ := hes e he
  exact ⟨hf, ht⟩

/-- C5 witness: the invariant holds for the entries of a concretely
parsed catalog. -/
theorem C5_witness :
    parse c2winput = some c2wcat ∧ ∀ e ∈ c2wcat.entries, StatusOK e :=
  ⟨by decide, C5_derived_status.2.2.2 c2winput c2wcat (by decide)⟩

end Poterm
